import Mathlib

set_option maxRecDepth 100000

/-!
Verification of the XML-to-CSV converter (class XMLToBusCSVConverter,
src/xmltocsv.py).  The Python code is shallowly embedded: XML element
trees become the inductive type `XTree`, Python dicts become association
lists mutated through `dictInsert`, the field-name set becomes a
duplicate-free list grown through `addField`, and every `print` call is
recorded in a diagnostics list inside the running state `St`.  Each
definition mirrors one Python method; the claims are settled as theorems
at the end of the file.
-/

/-! ## Dictionaries (Python dict) and the field registry (Python set) -/

/-- A Python dict from string keys to string values, embedded as an
association list in insertion order.  `dictInsert` reproduces
`d[k] = v`: an existing key keeps its position and gets the new value,
a new key is appended at the end. -/
abbrev Rec := List (String × String)

/-- Embedding of `d[k] = v` on a Python dict: when the key is present
its entry is updated in place, otherwise a new entry is appended. -/
def dictInsert : Rec → String → String → Rec
  | [], k, v => [(k, v)]
  | p :: rest, k, v =>
    if p.1 = k then (k, v) :: rest else p :: dictInsert rest k v

/-- Embedding of `d.get(k)` / `k in d` on a Python dict: the value at the
first (and, for dicts built by `dictInsert`, only) entry with key `k`. -/
def getVal : Rec → String → Option String
  | [], _ => none
  | p :: rest, k => if p.1 = k then some p.2 else getVal rest k

/-- The key list of an embedded dict. -/
def keysOf (d : Rec) : List String := d.map Prod.fst

/-- Embedding of `self.field_names.add(k)` on the Python set of field
names: membership-preserving insertion into a duplicate-free list. -/
def addField (fs : List String) (k : String) : List String :=
  if k ∈ fs then fs else fs ++ [k]

/-! ## Characters and strings used by the converter -/

/-- The right-brace character that ElementTree uses to delimit an XML
namespace inside a tag name. -/
def rbrace : Char := Char.ofNat 125

/-- A single-quote character, used in some diagnostic messages. -/
def sglQuote : String := String.singleton (Char.ofNat 39)

/-- The 70-character separator line printed by `process_xml_file`. -/
def sep70 : String := String.mk (List.replicate 70 (Char.ofNat 61))

/-- Embedding of Python `str.strip()`: drop leading and trailing
whitespace. -/
def pyStrip (s : String) : String :=
  String.mk (((s.data.dropWhile Char.isWhitespace).reverse.dropWhile
      Char.isWhitespace).reverse)

/-- Embedding of Python `str.split(sep)` for the one-character separator
`rbrace`, on the character list of the string.  Like Python, the result
always has one more part than there are separator occurrences. -/
def splitOnBrace : List Char → List (List Char)
  | [] => [[]]
  | c :: cs =>
    if c == rbrace then [] :: splitOnBrace cs
    else
      match splitOnBrace cs with
      | [] => [[c]]
      | s :: ss => (c :: s) :: ss

/-- Embedding of `_strip_namespace` (src/xmltocsv.py:38): if the tag
contains a right brace, return `tag.split(rbrace)[1]`, the part after
the FIRST brace (up to the next one); otherwise return the tag
unchanged.  The fallback arm of the match is unreachable because a
split always has at least two parts when the separator occurs. -/
def stripNamespace (tag : String) : String :=
  if tag.data.contains rbrace then
    match splitOnBrace tag.data with
    | _ :: s :: _ => String.mk s
    | _ => tag
  else tag

/-- Decimal rendering of a natural number (Python `str(n)` inside
f-strings), written with a fuel argument so that it is structurally
recursive. -/
def natToStrAux : Nat → Nat → List Char → List Char
  | 0, _, acc => acc
  | fuel + 1, n, acc =>
    let d := Char.ofNat (48 + n % 10)
    if n < 10 then d :: acc else natToStrAux fuel (n / 10) (d :: acc)

/-- Decimal rendering of a natural number. -/
def natToStr (n : Nat) : String := String.mk (natToStrAux (n + 1) n [])

/-! ## XML trees -/

/-- An in-memory XML element as produced by `xml.etree.ElementTree`:
a raw (possibly namespaced) tag, the attribute pairs in document order,
the text content (empty string standing for Python `None`), and the
child elements in document order. -/
inductive XTree where
  | node (tag : String) (attrs : List (String × String)) (text : String)
      (children : List XTree)

/-- The raw tag of an element. -/
def XTree.tag : XTree → String
  | .node t _ _ _ => t

/-- The attribute list of an element. -/
def XTree.attrs : XTree → List (String × String)
  | .node _ a _ _ => a

/-- The text content of an element. -/
def XTree.text : XTree → String
  | .node _ _ x _ => x

/-- The child list of an element. -/
def XTree.children : XTree → List XTree
  | .node _ _ _ cs => cs

mutual
/-- Induction over an `XTree` with induction hypotheses for every child,
packaged as a reusable principle for the proofs below. -/
def treeMemInd {P : XTree → Prop}
    (h : ∀ t a x cs, (∀ c ∈ cs, P c) → P (XTree.node t a x cs)) :
    (e : XTree) → P e
  | .node t a x cs => h t a x cs (forestMemInd h cs)

/-- List form of `treeMemInd`. -/
def forestMemInd {P : XTree → Prop}
    (h : ∀ t a x cs, (∀ c ∈ cs, P c) → P (XTree.node t a x cs)) :
    (cs : List XTree) → ∀ c ∈ cs, P c
  | d :: ds, c, hc => by
    rcases List.mem_cons.mp hc with h1 | h2
    · exact h1 ▸ treeMemInd h d
    · exact forestMemInd h ds c h2
end

mutual
/-- Whether any element of the tree carries an attribute or
non-whitespace text: exactly the trees from which the fallback flatten
can build a non-empty record. -/
def hasData : XTree → Bool
  | .node _ attrs text cs =>
    (!attrs.isEmpty) || (pyStrip text != "") || anyData cs

/-- List form of `hasData`. -/
def anyData : List XTree → Bool
  | [] => false
  | c :: cs => hasData c || anyData cs
end

mutual
/-- All proper descendants of an element, in document order: the
embedding of ElementTree `root.findall(".//tag")` enumerates these and
filters by tag. -/
def descTree : XTree → List XTree
  | .node _ _ _ cs => descForest cs

/-- All elements of a forest together with their descendants, in
document order. -/
def descForest : List XTree → List XTree
  | [] => []
  | c :: cs => (c :: descTree c) ++ descForest cs
end

/-- Embedding of `root.findall(".//" + t)`: all proper descendants whose
raw tag equals `t`, in document order. -/
def findallDesc (root : XTree) (t : String) : List XTree :=
  (descTree root).filter (fun e => e.tag == t)

/-! ## Converter state: field registry plus captured print output -/

/-- The mutable converter state threaded through a run: the field-name
registry `self.field_names` and the diagnostics printed so far. -/
structure St where
  fields : List String
  diags : List String

/-- Record one `print(...)` call. -/
def pr (st : St) (msg : String) : St :=
  { st with diags := st.diags ++ [msg] }

/-- The converter state right after `__init__`: the field registry
holds exactly `source_file`. -/
def initSt : St := { fields := ["source_file"], diags := [] }

/-! ## Flattening (record-root mode): `_flatten_element` -/

/-- Embedding of `_get_element_path` (src/xmltocsv.py:50). -/
def getElementPath (tag : String) (parentPath : String) : String :=
  if parentPath ≠ "" then parentPath ++ "." ++ stripNamespace tag
  else stripNamespace tag

/-- One step shared by both flattening modes: store a value in the
record under `key` and register `key` in the field registry, as the
source does in two adjacent statements. -/
def insertReg (p : Rec × List String) (key v : String) : Rec × List String :=
  (dictInsert p.1 key v, addField p.2 key)

/-- The loop over `element.attrib.items()` shared by both flattening
modes: each attribute is stored under the key computed by `keyF` from
its (namespaced) name, and the key is registered. -/
def attrFold (keyF : String → String) :
    List (String × String) → Rec × List String → Rec × List String
  | [], p => p
  | av :: rest, p => attrFold keyF rest (insertReg p (keyF av.1) av.2)

mutual
/-- Embedding of `_flatten_element` (src/xmltocsv.py:255): record the
attributes of `e` under keys `pre + tag + "_@" + attr`, its stripped
text under `pre + tag`, and recurse into the children with prefix
`pre + tag + "_"`; every key is simultaneously added to the field
registry. -/
def flattenElement (e : XTree) (r : Rec) (f : List String) (pre : String) :
    Rec × List String :=
  match e with
  | .node tag attrs text cs =>
    let t := stripNamespace tag
    let st1 := attrFold (fun a => pre ++ t ++ "_@" ++ stripNamespace a)
      attrs (r, f)
    let st2 :=
      if pyStrip text ≠ "" then insertReg st1 (pre ++ t) (pyStrip text)
      else st1
    flattenElemList cs st2.1 st2.2 (pre ++ t ++ "_")

/-- The loop over children at the end of `_flatten_element`. -/
def flattenElemList (cs : List XTree) (r : Rec) (f : List String)
    (pre : String) : Rec × List String :=
  match cs with
  | [] => (r, f)
  | c :: rest =>
    let p := flattenElement c r f pre
    flattenElemList rest p.1 p.2 pre
end

/-- Embedding of `_element_to_record` (src/xmltocsv.py:249): flatten the
element into a dict seeded with `source_file`, and discard the record
when nothing beyond the file name was collected. -/
def elementToRecord (e : XTree) (fname : String) (f : List String) :
    Rec × List String :=
  let p := flattenElement e [("source_file", fname)] f ""
  (if p.1.length > 1 then p.1 else [], p.2)

/-! ## Flattening (generic fallback mode): `_flatten_nested_records` -/

mutual
/-- Embedding of `_flatten_nested_records` (src/xmltocsv.py:95): add the
attributes of `e` under `tag + ".@" + attr` and its stripped text under
`tag + ".value"` to a copy of the inherited data; a childless element
emits the accumulated data as one record when non-empty; otherwise the
function recurses into every child (the same-tag-collection test selects
between two identical loops, kept here exactly as in the source). -/
def flattenNested (e : XTree) (ppath : String) (pd : Rec)
    (f : List String) : List Rec × List String :=
  match e with
  | .node tag attrs text cs =>
    let cur := getElementPath tag ppath
    let t := stripNamespace tag
    let st1 := attrFold (fun a => t ++ ".@" ++ stripNamespace a)
      attrs (pd, f)
    let st2 :=
      if pyStrip text ≠ "" then insertReg st1 (t ++ ".value") (pyStrip text)
      else st1
    if cs.isEmpty then
      (if st2.1.isEmpty then [] else [st2.1], st2.2)
    else
      if ((cs.map XTree.tag).dedup.length == 1) && decide (cs.length > 1) then
        flattenNestedList cs cur st2.1 st2.2
      else
        flattenNestedList cs cur st2.1 st2.2

/-- The loop over children inside `_flatten_nested_records`, extending
the record list child by child. -/
def flattenNestedList (cs : List XTree) (ppath : String) (pd : Rec)
    (f : List String) : List Rec × List String :=
  match cs with
  | [] => ([], f)
  | c :: rest =>
    let p := flattenNested c ppath pd f
    let q := flattenNestedList rest ppath pd p.2
    (p.1 ++ q.1, q.2)
end

mutual
/-- The simplified fallback flatten described by claim C10: identical to
`flattenNested` except that the same-tag-collection test on the child
list has been removed. -/
def flattenNestedSimple (e : XTree) (ppath : String) (pd : Rec)
    (f : List String) : List Rec × List String :=
  match e with
  | .node tag attrs text cs =>
    let cur := getElementPath tag ppath
    let t := stripNamespace tag
    let st1 := attrFold (fun a => t ++ ".@" ++ stripNamespace a)
      attrs (pd, f)
    let st2 :=
      if pyStrip text ≠ "" then insertReg st1 (t ++ ".value") (pyStrip text)
      else st1
    if cs.isEmpty then
      (if st2.1.isEmpty then [] else [st2.1], st2.2)
    else
      flattenNestedSimpleList cs cur st2.1 st2.2

/-- List form of `flattenNestedSimple`. -/
def flattenNestedSimpleList (cs : List XTree) (ppath : String) (pd : Rec)
    (f : List String) : List Rec × List String :=
  match cs with
  | [] => ([], f)
  | c :: rest =>
    let p := flattenNestedSimple c ppath pd f
    let q := flattenNestedSimpleList rest ppath pd p.2
    (p.1 ++ q.1, q.2)
end

/-! ## The classifier: `_extract_records_smart` -/

/-- The fixed ordered tag list scanned by strategy 1
(src/xmltocsv.py:205). -/
def journeyPatterns : List String :=
  ["Journey", "Leg", "Segment", "Connection", "Route",
   "Stop", "Station", "Transit"]

/-- The shared loop body of strategies 1 to 3: convert each candidate
element to a record and keep the non-empty ones. -/
def buildRecs (es : List XTree) (fname : String) (f : List String)
    (acc : List Rec) : List Rec × List String :=
  match es with
  | [] => (acc, f)
  | e :: rest =>
    let p := elementToRecord e fname f
    buildRecs rest fname p.2 (if p.1.isEmpty then acc else acc ++ [p.1])

/-- Strategy 1 (known-tag scan, src/xmltocsv.py:208): for each pattern
in order, collect all descendants with that tag; when more than one is
found, build records from them, returning as soon as any pattern yields
a non-empty record list. -/
def strat1 (root : XTree) (fname : String) (pats : List String) (st : St)
    (acc : List Rec) : List Rec × St :=
  match pats with
  | [] => (acc, st)
  | p :: rest =>
    let elems := findallDesc root p
    if elems.length > 1 then
      let st := pr st ("  → Found " ++ natToStr elems.length ++ " " ++ sglQuote
        ++ p ++ sglQuote ++ " elements")
      let b := buildRecs elems fname st.fields acc
      let st := { st with fields := b.2 }
      if b.1.isEmpty then strat1 root fname rest st b.1 else (b.1, st)
    else strat1 root fname rest st acc

/-- Strategy 2 (nested-collection scan, src/xmltocsv.py:220): walk the
direct children of the root; when one has more than one same-tag
grandchild, build records from those grandchildren, returning as soon as
the accumulated record list is non-empty. -/
def strat2 (cs : List XTree) (fname : String) (st : St) (acc : List Rec) :
    List Rec × St :=
  match cs with
  | [] => (acc, st)
  | c :: rest =>
    let gcs := c.children
    if (!gcs.isEmpty)
        && ((gcs.map XTree.tag).dedup.length == 1)
        && decide (gcs.length > 1) then
      let tg := (gcs.headD (.node "" [] "" [])).tag
      let st := pr st ("  → Found collection of " ++ natToStr gcs.length
        ++ " " ++ sglQuote ++ tg ++ sglQuote ++ " elements")
      let b := buildRecs gcs fname st.fields acc
      let st := { st with fields := b.2 }
      if b.1.isEmpty then strat2 rest fname st b.1 else (b.1, st)
    else strat2 rest fname st acc

/-- Strategy 3 (root-collection scan, src/xmltocsv.py:236): when the
root has more than one same-tag child, build records from the children
and return them unconditionally. -/
def strat3 (root : XTree) (fname : String) (st : St) (acc : List Rec) :
    List Rec × St :=
  let cs := root.children
  if (!cs.isEmpty)
      && ((cs.map XTree.tag).dedup.length == 1)
      && decide (cs.length > 1) then
    let tg := (cs.headD (.node "" [] "" [])).tag
    let st := pr st ("  → Found " ++ natToStr cs.length ++ " root-level "
      ++ sglQuote ++ tg ++ sglQuote ++ " elements")
    let b := buildRecs cs fname st.fields acc
    (b.1, { st with fields := b.2 })
  else (acc, st)

/-- Embedding of `_extract_records_smart` (src/xmltocsv.py:196):
strategies 1, 2, 3 in order, first non-empty result wins (an early
return in the source corresponds to a non-empty record list here). -/
def extractRecordsSmart (root : XTree) (fname : String) (st : St) :
    List Rec × St :=
  let r1 := strat1 root fname journeyPatterns st []
  if r1.1.isEmpty then
    let r2 := strat2 root.children fname r1.2 r1.1
    if r2.1.isEmpty then strat3 root fname r2.2 r2.1
    else r2
  else r1

/-! ## Per-file and per-run processing -/

/-- Embedding of `process_xml_file` (src/xmltocsv.py:156).  The
argument is the result of `ET.parse`: a tree on success, the parser
message on a parse error.  `fname` is `Path(filepath).name`.  Returns
the record list, the record count, and the updated state. -/
def processXmlFile (parsed : Except String XTree) (fname : String)
    (st : St) : List Rec × Nat × St :=
  match parsed with
  | .error msg => ([], 0, pr st ("  ✗ Error parsing XML: " ++ msg))
  | .ok root =>
    let st := pr st ("\n" ++ sep70)
    let st := pr st ("Processing: " ++ fname)
    let st := pr st ("Root element: " ++ root.tag)
    let st := pr st sep70
    let e := extractRecordsSmart root fname st
    let st := e.2
    let recs := e.1
    let p :=
      if recs.isEmpty then
        let st := pr st "  → Using fallback extraction strategy..."
        let q := flattenNested root "" [] st.fields
        (q.1, { st with fields := q.2 })
      else (recs, st)
    let records := p.1.map (fun r =>
      if (keysOf r).contains "source_file" then r
      else dictInsert r "source_file" fname)
    let st := pr p.2 ("  ✓ Extracted " ++ natToStr records.length
      ++ " records")
    (records, records.length, st)

/-- The per-file loop inside `process_all_files`, accumulating the
extracted records and the running total. -/
def processFilesLoop (files : List (Except String XTree × String))
    (st : St) (acc : List Rec) (total : Nat) : List Rec × Nat × St :=
  match files with
  | [] => (acc, total, st)
  | (p, fname) :: rest =>
    let r := processXmlFile p fname st
    processFilesLoop rest r.2.2 (acc ++ r.1) (total + r.2.1)

/-- Embedding of `process_all_files` (src/xmltocsv.py:275) from a fresh
converter: the file list carries, per file, the parse result and the
base name. -/
def processAllFiles (folder : String)
    (files : List (Except String XTree × String)) : List Rec × Nat × St :=
  if files.isEmpty then
    ([], 0, pr initSt ("No XML files found in: " ++ folder))
  else
    processFilesLoop files
      (pr initSt ("\nFound " ++ natToStr files.length ++ " XML file(s)"))
      [] 0

/-! ## Column ordering and CSV output: `save_to_csv` -/

/-- Code-point comparison of character lists: the order Python `sorted`
uses on strings. -/
def charsLe : List Char → List Char → Bool
  | [], _ => true
  | _ :: _, [] => false
  | a :: as, b :: bs =>
    if a.toNat < b.toNat then true
    else if b.toNat < a.toNat then false
    else charsLe as bs

/-- Code-point comparison of strings. -/
def strLe (a b : String) : Bool := charsLe a.data b.data

/-- Embedding of `sorted(list(self.field_names))`
(src/xmltocsv.py:327): the distinct field names in ascending
code-point order. -/
def sortedFields (fs : List String) : List String :=
  List.insertionSort (fun a b => strLe a b = true) fs.dedup

/-- The fixed priority list of `save_to_csv` (src/xmltocsv.py:330),
transcribed verbatim; note that `Time` occurs twice, as in the source. -/
def priorityFields : List String :=
  ["source_file",
   "Route", "RouteID", "LineID", "LineName", "Line",
   "FromStop", "ToStop", "StopID", "StopName", "Station", "Stop",
   "AnnotatedStopPointRef", "CommonName", "Indicator", "LocalityName",
   "StopPointRef",
   "Lat", "Latitude", "Lon", "Longitude", "Coordinates",
   "Runtime", "Duration", "TravelTime", "Time", "Departure", "Arrival",
   "Timestamp", "Date", "Time",
   "Direction", "Sequence",
   "Operator", "Company", "Provider"]

/-- Embedding of the column-order computation of `save_to_csv`
(src/xmltocsv.py:343): move each priority field found in the sorted
field list to the front (removing it there), then append what is left. -/
def buildOrdered (fs : List String) : List String :=
  let sf := sortedFields fs
  let p := priorityFields.foldl
    (fun (p : List String × List String) field =>
      if field ∈ p.2 then (p.1 ++ [field], p.2.erase field) else p)
    ([], sf)
  p.1 ++ p.2

/-- Whether `csv.writer` must quote a field (QUOTE_MINIMAL). -/
def needsQuote (s : String) : Bool :=
  s.data.any (fun c =>
    c == ',' || c == Char.ofNat 34 || c == Char.ofNat 13 || c == Char.ofNat 10)

/-- Double every double-quote character, as CSV quoting requires. -/
def escQuotes (s : String) : String :=
  String.mk (s.data.foldr
    (fun c acc =>
      if c == Char.ofNat 34 then c :: c :: acc else c :: acc) [])

/-- Render one CSV field with minimal quoting. -/
def csvField (s : String) : String :=
  if needsQuote s then "\"" ++ escQuotes s ++ "\"" else s

/-- Comma-join a list of rendered fields. -/
def joinComma : List String → String
  | [] => ""
  | [x] => x
  | x :: xs => x ++ "," ++ joinComma xs

/-- Render one CSV line, with the CRLF terminator of the default csv
dialect. -/
def csvLine (cells : List String) : String :=
  joinComma (cells.map csvField) ++ "\r\n"

/-- Render one record row against the column list: a missing key becomes
an empty field (`DictWriter` with the default empty `restval`). -/
def renderRow (cols : List String) (r : Rec) : String :=
  csvLine (cols.map (fun c => (getVal r c).getD ""))

/-- Embedding of `save_to_csv` (src/xmltocsv.py:293), output-path glue
omitted: with no data nothing is written; otherwise every record missing
`source_file` gets the value `unknown`, the columns are ordered by
`buildOrdered`, and header plus rows are rendered.  Returns the rows as
written, the column order, and the file content. -/
def saveToCsv (rows : List Rec) (fs : List String) :
    List Rec × List String × String :=
  if rows.isEmpty then ([], [], "")
  else
    let rows := rows.map (fun r =>
      if (keysOf r).contains "source_file" then r
      else dictInsert r "source_file" "unknown")
    let cols := buildOrdered fs
    (rows, cols,
      csvLine cols ++ String.join (rows.map (renderRow cols)))

/-! ## Auxiliary definitions used by the claim statements -/

/-- The namespace-stripping behavior claimed by the specification (claim
C6), stated as a definition to compare against the code: keep only the
local part after the LAST occurrence of the delimiter; names without a
delimiter are unchanged. -/
def stripNamespaceSpec (tag : String) : String :=
  if tag.data.contains rbrace then
    String.mk ((tag.data.reverse.takeWhile (fun c => c != rbrace)).reverse)
  else tag

/-- Whether a record carries a non-empty `source_file` value. -/
def sourceFileOk (r : Rec) : Prop :=
  ∃ v, getVal r "source_file" = some v ∧ v ≠ ""

/-- The records a single file contributes to a run, as a function of the
parse result and file name alone. -/
def fileRows (pf : Except String XTree × String) : List Rec :=
  (processXmlFile pf.1 pf.2 initSt).1

/-- Keep the first occurrence of every element, dropping later
duplicates: the shape of the priority part of the column order. -/
def dedupFirst : List String → List String
  | [] => []
  | a :: l => a :: dedupFirst (l.filter (fun b => b ≠ a))
  termination_by l => l.length
  decreasing_by
    simp only [List.length_cons]
    exact Nat.lt_succ_of_le (List.length_filter_le _ _)

/-- The document of scenario A: a root with three sibling Stop elements,
each carrying attributes id and name. -/
def stopsTree : XTree :=
  .node "Root" [] ""
    [.node "Stop" [("id", "1"), ("name", "A")] "" [],
     .node "Stop" [("id", "2"), ("name", "B")] "" [],
     .node "Stop" [("id", "3"), ("name", "C")] "" []]

/-! ## Basic lemmas: dict updates, the registry, string characters -/

theorem dictInsert_ne_nil (d : Rec) (k v : String) : dictInsert d k v ≠ [] := by
  cases d with
  | nil => simp [dictInsert]
  | cons p rest =>
    unfold dictInsert
    split <;> simp

theorem mem_keysOf_dictInsert {d : Rec} {k v a : String} :
    a ∈ keysOf (dictInsert d k v) ↔ a ∈ keysOf d ∨ a = k := by
  induction d with
  | nil => simp [dictInsert, keysOf]
  | cons p rest ih =>
    unfold dictInsert
    split
    · next hp =>
      subst hp
      simp [keysOf]
      tauto
    · simp only [keysOf, List.map_cons, List.mem_cons] at *
      rw [ih]
      tauto

theorem getVal_dictInsert_self (d : Rec) (k v : String) :
    getVal (dictInsert d k v) k = some v := by
  induction d with
  | nil => simp [dictInsert, getVal]
  | cons p rest ih =>
    unfold dictInsert
    split
    · simp [getVal]
    · next hp =>
      simp [getVal, hp]
      exact ih

theorem getVal_dictInsert_ne {k2 k : String} (d : Rec) (v : String)
    (h : k2 ≠ k) : getVal (dictInsert d k v) k2 = getVal d k2 := by
  have hk : ¬ (k = k2) := fun hh => h hh.symm
  induction d with
  | nil => simp [dictInsert, getVal, hk]
  | cons p rest ih =>
    unfold dictInsert
    split
    · next hp =>
      subst hp
      simp [getVal, hk]
    · simp only [getVal]
      split
      · rfl
      · exact ih

theorem getVal_isSome_iff_mem {d : Rec} {k : String} :
    (getVal d k).isSome = true ↔ k ∈ keysOf d := by
  induction d with
  | nil => simp [getVal, keysOf]
  | cons p rest ih =>
    simp only [getVal, keysOf, List.map_cons, List.mem_cons]
    split
    · next hp => simp [hp]
    · next hp =>
      rw [ih]
      constructor
      · tauto
      · rintro (h | h)
        · exact absurd h.symm hp
        · exact h

theorem mem_addField_iff {fs : List String} {k a : String} :
    a ∈ addField fs k ↔ a ∈ fs ∨ a = k := by
  unfold addField
  split
  · next hk =>
    constructor
    · tauto
    · rintro (h | rfl) <;> assumption
  · simp

theorem mem_addField_of_mem {fs : List String} {k a : String}
    (h : a ∈ fs) : a ∈ addField fs k := mem_addField_iff.mpr (Or.inl h)

theorem mem_addField_self (fs : List String) (k : String) :
    k ∈ addField fs k := mem_addField_iff.mpr (Or.inr rfl)

theorem ne_of_mem_char {s t : String} {c : Char} (hc : c ∈ s.data)
    (hn : c ∉ t.data) : s ≠ t := fun h => hn (h ▸ hc)

theorem atSign_mem_attrKey (pre t x : String) :
    (Char.ofNat 64) ∈ (pre ++ t ++ "_@" ++ x).data := by
  rw [String.data_append, String.data_append, String.data_append]
  exact List.mem_append_left _ (List.mem_append_right _ (by decide))

theorem attrKey_ne_sourceFile (pre t x : String) :
    pre ++ t ++ "_@" ++ x ≠ "source_file" :=
  ne_of_mem_char (atSign_mem_attrKey pre t x) (by decide)

theorem dot_mem_dotAttrKey (t x : String) :
    (Char.ofNat 46) ∈ (t ++ ".@" ++ x).data := by
  rw [String.data_append, String.data_append]
  exact List.mem_append_left _ (List.mem_append_right _ (by decide))

theorem dotAttrKey_ne_sourceFile (t x : String) :
    t ++ ".@" ++ x ≠ "source_file" :=
  ne_of_mem_char (dot_mem_dotAttrKey t x) (by decide)

theorem dot_mem_dotValueKey (t : String) :
    (Char.ofNat 46) ∈ (t ++ ".value").data := by
  rw [String.data_append]
  exact List.mem_append_right _ (by decide)

theorem dotValueKey_ne_sourceFile (t : String) :
    t ++ ".value" ≠ "source_file" :=
  ne_of_mem_char (dot_mem_dotValueKey t) (by decide)

/-! ## The code-point order used to embed Python sorted() -/

theorem charsLe_total : ∀ as bs : List Char,
    charsLe as bs = true ∨ charsLe bs as = true := by
  intro as
  induction as with
  | nil => intro bs; left; cases bs <;> rfl
  | cons a arest ih =>
    intro bs
    cases bs with
    | nil => right; rfl
    | cons b brest =>
      unfold charsLe
      rcases Nat.lt_trichotomy a.toNat b.toNat with hab | hab | hab
      · left; simp [hab]
      · have h1 : ¬ a.toNat < b.toNat := by omega
        have h2 : ¬ b.toNat < a.toNat := by omega
        rcases ih brest with h | h
        · left; simp [h1, h2, h]
        · right; simp [h1, h2, h]
      · right; simp [hab]

theorem charsLe_trans : ∀ as bs cs : List Char,
    charsLe as bs = true → charsLe bs cs = true → charsLe as cs = true := by
  intro as
  induction as with
  | nil => intro bs cs _ _; cases cs <;> rfl
  | cons a arest ih =>
    intro bs cs h1 h2
    cases bs with
    | nil => simp [charsLe] at h1
    | cons b brest =>
      cases cs with
      | nil => simp [charsLe] at h2
      | cons c crest =>
        unfold charsLe at h1 h2 ⊢
        rcases Nat.lt_trichotomy a.toNat b.toNat with hab | hab | hab
        · rcases Nat.lt_trichotomy b.toNat c.toNat with hbc | hbc | hbc
          · simp [show a.toNat < c.toNat by omega]
          · simp [show a.toNat < c.toNat by omega]
          · simp [show ¬ b.toNat < c.toNat by omega,
              show c.toNat < b.toNat by omega] at h2
        · simp only [show ¬ a.toNat < b.toNat by omega,
            show ¬ b.toNat < a.toNat by omega, if_false, ite_false,
            if_neg, reduceIte] at h1
          rcases Nat.lt_trichotomy b.toNat c.toNat with hbc | hbc | hbc
          · simp [show a.toNat < c.toNat by omega]
          · simp only [show ¬ b.toNat < c.toNat by omega,
              show ¬ c.toNat < b.toNat by omega, if_neg, reduceIte] at h2
            simp only [show ¬ a.toNat < c.toNat by omega,
              show ¬ c.toNat < a.toNat by omega, if_neg, reduceIte]
            exact ih brest crest h1 h2
          · simp [show ¬ b.toNat < c.toNat by omega,
              show c.toNat < b.toNat by omega] at h2
        · simp [show ¬ a.toNat < b.toNat by omega,
            show b.toNat < a.toNat by omega] at h1

theorem charsLe_antisymm : ∀ as bs : List Char,
    charsLe as bs = true → charsLe bs as = true → as = bs := by
  intro as
  induction as with
  | nil =>
    intro bs _ h2
    cases bs with
    | nil => rfl
    | cons b brest => simp [charsLe] at h2
  | cons a arest ih =>
    intro bs h1 h2
    cases bs with
    | nil => simp [charsLe] at h1
    | cons b brest =>
      unfold charsLe at h1 h2
      rcases Nat.lt_trichotomy a.toNat b.toNat with hab | hab | hab
      · simp [show ¬ b.toNat < a.toNat by omega, hab] at h2
      · simp only [show ¬ a.toNat < b.toNat by omega,
          show ¬ b.toNat < a.toNat by omega, if_neg, reduceIte] at h1 h2
        have hc : a = b := by
          have hn : a.toNat = b.toNat := by omega
          calc a = Char.ofNat a.toNat := (Char.ofNat_toNat a).symm
          _ = Char.ofNat b.toNat := by rw [hn]
          _ = b := Char.ofNat_toNat b
        rw [hc, ih brest h1 h2]
      · simp [show ¬ a.toNat < b.toNat by omega, hab] at h1

instance : IsTotal String (fun a b => strLe a b = true) :=
  ⟨fun a b => charsLe_total a.data b.data⟩

instance : IsTrans String (fun a b => strLe a b = true) :=
  ⟨fun a b c => charsLe_trans a.data b.data c.data⟩

instance : IsAntisymm String (fun a b => strLe a b = true) :=
  ⟨fun a b h1 h2 => String.ext (charsLe_antisymm a.data b.data h1 h2)⟩

/-! ## The two fallback-flatten branches are the same recursion (C10) -/

theorem flattenNestedList_congr (cs : List XTree)
    (h : ∀ c ∈ cs, ∀ pp pd f,
      flattenNested c pp pd f = flattenNestedSimple c pp pd f) :
    ∀ pp pd f, flattenNestedList cs pp pd f
      = flattenNestedSimpleList cs pp pd f := by
  induction cs with
  | nil => intro pp pd f; rfl
  | cons c rest ih =>
    intro pp pd f
    simp only [flattenNestedList, flattenNestedSimpleList]
    rw [h c (by simp), ih (fun d hd => h d (by simp [hd]))]

theorem flattenNested_eq_simple_aux :
    ∀ e pp pd f, flattenNested e pp pd f = flattenNestedSimple e pp pd f := by
  intro e
  induction e using treeMemInd with
  | _ t a x cs ih =>
    intro pp pd f
    simp only [flattenNested, flattenNestedSimple, ite_self]
    split
    · rfl
    · exact flattenNestedList_congr cs (fun c hc => ih c hc) _ _ _

/-! ## Behavior of splitOnBrace and stripNamespace (C6) -/

theorem splitOnBrace_head : ∀ l : List Char, ∃ rest,
    splitOnBrace l = (l.takeWhile (fun c => c != rbrace)) :: rest := by
  intro l
  induction l with
  | nil => exact ⟨[], rfl⟩
  | cons c cs ih =>
    by_cases hc : c = rbrace
    · subst hc
      refine ⟨splitOnBrace cs, ?_⟩
      simp [splitOnBrace, List.takeWhile]
    · obtain ⟨rest, hrest⟩ := ih
      refine ⟨rest, ?_⟩
      simp only [splitOnBrace, List.takeWhile_cons]
      rw [if_neg (by simp [hc]), hrest, if_pos (by simp [hc])]

theorem splitOnBrace_append_nobrace :
    ∀ (a b : List Char), rbrace ∉ a →
      splitOnBrace (a ++ rbrace :: b) = a :: splitOnBrace b := by
  intro a
  induction a with
  | nil => intro b _; simp [splitOnBrace]
  | cons c crest ih =>
    intro b hnb
    have hc : ¬ (c = rbrace) := fun h => hnb (h ▸ List.mem_cons_self c crest)
    have hcrest : rbrace ∉ crest := fun h => hnb (List.mem_cons_of_mem c h)
    simp only [List.cons_append, splitOnBrace]
    rw [if_neg (by simp [hc])]
    simp only [List.append_eq]
    rw [ih b hcrest]

/-! ## Claim C10 -/

/-- C10: in the generic fallback flatten, the rows produced for an
element with children do not depend on whether those children all share
one tag: the same-tag-collection branch and the mixed-tag-children
branch perform identical recursions, so the function equals the
simplified version with the collection check removed. -/
theorem fallbackFlatten_collection_check_redundant :
    ∀ e pp pd f, flattenNested e pp pd f = flattenNestedSimple e pp pd f :=
  flattenNested_eq_simple_aux

/-! ## Claim C6 -/

/-- C6 counterexample: on a name with two delimiter occurrences the code
keeps the part after the FIRST delimiter, not the local part after the
last one as the claim states. -/
theorem stripNamespace_counterexample :
    stripNamespace (String.mk ['a', rbrace, 'b', rbrace, 'c']) = "b"
    ∧ stripNamespaceSpec (String.mk ['a', rbrace, 'b', rbrace, 'c']) = "c"
    ∧ stripNamespace (String.mk ['a', rbrace, 'b', rbrace, 'c'])
        ≠ stripNamespaceSpec (String.mk ['a', rbrace, 'b', rbrace, 'c']) :=
  ⟨by decide, by decide, by decide⟩

/-- C6 amended: for a name containing a namespace delimiter, stripping
keeps the segment immediately after the FIRST occurrence of the
delimiter, up to the next occurrence if any; names without a delimiter
are returned unchanged. -/
theorem stripNamespace_first_segment :
    (∀ a b : List Char, rbrace ∉ a →
      stripNamespace (String.mk (a ++ rbrace :: b))
        = String.mk (b.takeWhile (fun c => c != rbrace)))
    ∧ ∀ t : String, rbrace ∉ t.data → stripNamespace t = t := by
  constructor
  · intro a b hnb
    unfold stripNamespace
    rw [if_pos (by simp [List.contains])]
    obtain ⟨rest, hrest⟩ := splitOnBrace_head b
    rw [show (String.mk (a ++ rbrace :: b)).data = a ++ rbrace :: b from rfl,
      splitOnBrace_append_nobrace a b hnb, hrest]
  · intro t ht
    unfold stripNamespace
    rw [if_neg (by simp [List.contains, ht])]

/-- C6 witness: the amended statement evaluated on a concrete namespaced
tag and a concrete plain tag. -/
theorem stripNamespace_first_segment_witness :
    stripNamespace (String.mk (['u', 'r', 'i'] ++ rbrace :: ['L', 'o', 'c']))
      = String.mk ['L', 'o', 'c']
    ∧ stripNamespace "Stop" = "Stop" :=
  ⟨(stripNamespace_first_segment.1 ['u', 'r', 'i'] ['L', 'o', 'c']
      (by decide)).trans (by decide),
   stripNamespace_first_segment.2 "Stop" (by decide)⟩

/-! ## Claim C3 -/

/-- C3: processing a document whose root directly holds three sibling
Stop elements, each with attributes id and name, yields exactly three
rows, and the field registry afterwards contains Stop_@id, Stop_@name
and source_file; Stop_@id also appears in the computed column order. -/
theorem scenarioA_three_rows :
    (processXmlFile (.ok stopsTree) "stops.xml" initSt).1.length = 3
    ∧ "Stop_@id" ∈ (processXmlFile (.ok stopsTree) "stops.xml" initSt).2.2.fields
    ∧ "Stop_@name" ∈ (processXmlFile (.ok stopsTree) "stops.xml" initSt).2.2.fields
    ∧ "source_file" ∈ (processXmlFile (.ok stopsTree) "stops.xml" initSt).2.2.fields
    ∧ "Stop_@id" ∈ buildOrdered (processXmlFile (.ok stopsTree) "stops.xml" initSt).2.2.fields :=
  ⟨rfl, by decide, by decide, by decide, by decide⟩

/-! ## Claim C1, counterexample part -/

/-- C1 counterexample: on the empty-root tree, a non-empty pathological
tree with no attributes and no text, the record-classification entry
point returns zero rows, not at least one. -/
theorem classify_emptyRoot_no_rows :
    (processXmlFile (.ok (.node "Root" [] "" [])) "empty.xml" initSt).1 = [] :=
  rfl

/-! ## Claim C1, amended part: non-empty output for trees with data -/

theorem attrFold_rec_ne_nil (keyF : String → String) :
    ∀ (l : List (String × String)) (p : Rec × List String),
      p.1 ≠ [] → (attrFold keyF l p).1 ≠ [] := by
  intro l
  induction l with
  | nil => intro p hp; exact hp
  | cons av rest ih =>
    intro p _
    exact ih _ (dictInsert_ne_nil _ _ _)

theorem attrFold_rec_ne_nil_of_attrs (keyF : String → String) :
    ∀ (l : List (String × String)) (p : Rec × List String),
      l ≠ [] → (attrFold keyF l p).1 ≠ [] := by
  intro l
  cases l with
  | nil => intro p h; exact absurd rfl h
  | cons av rest =>
    intro p _
    exact attrFold_rec_ne_nil keyF rest _ (dictInsert_ne_nil _ _ _)

theorem anyData_iff :
    ∀ cs : List XTree, anyData cs = true ↔ ∃ c ∈ cs, hasData c = true := by
  intro cs
  induction cs with
  | nil => simp [anyData]
  | cons c rest ih =>
    simp only [anyData, Bool.or_eq_true, ih, List.mem_cons]
    constructor
    · rintro (h | ⟨d, hd, hdat⟩)
      · exact ⟨c, Or.inl rfl, h⟩
      · exact ⟨d, Or.inr hd, hdat⟩
    · rintro ⟨d, h | h, hdat⟩
      · left; rw [← h]; exact hdat
      · right; exact ⟨d, h, hdat⟩

theorem flattenNestedList_ne_nil_of_child (cs : List XTree)
    (ih : ∀ c ∈ cs, ∀ pp pd f, (pd ≠ [] ∨ hasData c = true) →
      (flattenNested c pp pd f).1 ≠ [])
    (hc : ∃ c ∈ cs, hasData c = true) :
    ∀ pp pd f, (flattenNestedList cs pp pd f).1 ≠ [] := by
  induction cs with
  | nil => obtain ⟨c, hmem, _⟩ := hc; exact absurd hmem (by simp)
  | cons c rest iih =>
    intro pp pd f
    simp only [flattenNestedList]
    intro habs
    rw [List.append_eq_nil] at habs
    by_cases hcd : hasData c = true
    · exact ih c (by simp) pp pd f (Or.inr hcd) habs.1
    · obtain ⟨d, hd, hdat⟩ := hc
      rcases List.mem_cons.mp hd with rfl | hd2
      · exact hcd hdat
      · exact iih (fun d hd => ih d (by simp [hd])) ⟨d, hd2, hdat⟩ pp pd _ habs.2

theorem flattenNestedList_ne_nil_of_pd (cs : List XTree)
    (ih : ∀ c ∈ cs, ∀ pp pd f, (pd ≠ [] ∨ hasData c = true) →
      (flattenNested c pp pd f).1 ≠ [])
    (hcs : cs ≠ []) :
    ∀ pp (pd : Rec) f, pd ≠ [] → (flattenNestedList cs pp pd f).1 ≠ [] := by
  cases cs with
  | nil => exact absurd rfl hcs
  | cons c rest =>
    intro pp pd f hpd
    simp only [flattenNestedList]
    intro habs
    rw [List.append_eq_nil] at habs
    exact ih c (by simp) pp pd f (Or.inl hpd) habs.1

theorem nestedHead_ne_nil (t x : String) (a : List (String × String))
    (pd : Rec) (f : List String)
    (h : pd ≠ [] ∨ a ≠ [] ∨ pyStrip x ≠ "") :
    (if pyStrip x ≠ "" then
        insertReg (attrFold (fun s => t ++ ".@" ++ stripNamespace s) a (pd, f))
          (t ++ ".value") (pyStrip x)
      else attrFold (fun s => t ++ ".@" ++ stripNamespace s) a (pd, f)).1
      ≠ [] := by
  split
  · exact dictInsert_ne_nil _ _ _
  · next hx =>
    rcases h with hpd | hna | hxs
    · exact attrFold_rec_ne_nil _ a _ hpd
    · exact attrFold_rec_ne_nil_of_attrs _ a _ hna
    · exact absurd hxs hx

theorem flattenNested_ne_nil :
    ∀ (e : XTree) (pp : String) (pd : Rec) (f : List String),
      (pd ≠ [] ∨ hasData e = true) → (flattenNested e pp pd f).1 ≠ [] := by
  intro e
  induction e using treeMemInd with
  | _ t a x cs ih =>
    intro pp pd f hyp
    simp only [flattenNested, ite_self]
    by_cases hcs : cs.isEmpty
    · rw [if_pos hcs]
      have hcsnil := List.isEmpty_iff.mp hcs
      subst hcsnil
      have hdisj : pd ≠ [] ∨ a ≠ [] ∨ pyStrip x ≠ "" := by
        rcases hyp with hpd | hdat
        · exact Or.inl hpd
        · right
          simp only [hasData, anyData, Bool.or_false, Bool.or_eq_true,
            Bool.not_eq_eq_eq_not, Bool.not_false, bne_iff_ne] at hdat
          rcases hdat with hna | hx
          · exact Or.inl (by simpa using hna)
          · exact Or.inr hx
      split
      · split
        · next hemp =>
          exact absurd (List.isEmpty_iff.mp hemp) (dictInsert_ne_nil _ _ _)
        · simp
      · next hx =>
        have hne : (attrFold
            (fun s => stripNamespace t ++ ".@" ++ stripNamespace s)
            a (pd, f)).1 ≠ [] := by
          rcases hdisj with hpd | hna | hxs
          · exact attrFold_rec_ne_nil _ a _ hpd
          · exact attrFold_rec_ne_nil_of_attrs _ a _ hna
          · exact absurd hxs hx
        split
        · next hemp => exact absurd (List.isEmpty_iff.mp hemp) hne
        · simp
    · rw [if_neg hcs]
      have hcsne : cs ≠ [] := fun hh => hcs (by simp [hh])
      by_cases hdisj : pd ≠ [] ∨ a ≠ [] ∨ pyStrip x ≠ ""
      · exact flattenNestedList_ne_nil_of_pd cs ih hcsne _ _ _
          (nestedHead_ne_nil (stripNamespace t) x a pd f hdisj)
      · push_neg at hdisj
        obtain ⟨hpd, hna, hxs⟩ := hdisj
        have hdat : hasData (XTree.node t a x cs) = true := by
          rcases hyp with h | h
          · exact absurd hpd h
          · exact h
        simp only [hasData, Bool.or_eq_true, bne_iff_ne] at hdat
        rcases hdat with (hh | hh) | hh
        · rw [hna] at hh; simp at hh
        · exact absurd hh (by simp [hxs])
        · exact flattenNestedList_ne_nil_of_child cs ih
            ((anyData_iff cs).mp hh) _ _ _

/-- C1 amended: the record-classification entry point of
`process_xml_file` returns at least one row for every tree containing
at least one element that carries an attribute or non-whitespace text;
trees without any such data (such as an empty root element) yield zero
rows. -/
theorem classify_yields_row_of_hasData :
    ∀ (t : XTree) (fname : String) (st : St), hasData t = true →
      (processXmlFile (.ok t) fname st).1 ≠ [] := by
  intro t fname st ht
  simp only [processXmlFile]
  rw [Ne, List.map_eq_nil_iff]
  split
  · exact flattenNested_ne_nil t "" [] _ (Or.inr ht)
  · next hne => simpa [List.isEmpty_iff] using hne

/-- C1 witness: the amended theorem evaluated on the scenario-A stops
document, which carries attribute data. -/
theorem classify_yields_row_of_hasData_witness :
    hasData stopsTree = true
    ∧ (processXmlFile (.ok stopsTree) "stops.xml" initSt).1 ≠ [] :=
  ⟨by decide,
   classify_yields_row_of_hasData stopsTree "stops.xml" initSt (by decide)⟩

/-! ## Claim C2: the column order -/

theorem mem_sortedFields {fs : List String} {a : String} :
    a ∈ sortedFields fs ↔ a ∈ fs := by
  unfold sortedFields
  rw [(List.perm_insertionSort _ fs.dedup).mem_iff, List.mem_dedup]

theorem sortedFields_nodup (fs : List String) : (sortedFields fs).Nodup :=
  (List.perm_insertionSort _ fs.dedup).symm.nodup (List.nodup_dedup fs)

theorem sortedFields_sorted (fs : List String) :
    List.Sorted (fun a b => strLe a b = true) (sortedFields fs) :=
  List.sorted_insertionSort _ fs.dedup

theorem mem_dedupFirst : ∀ (l : List String) (a : String),
    a ∈ dedupFirst l ↔ a ∈ l := by
  intro l
  induction l using dedupFirst.induct with
  | case1 => simp [dedupFirst]
  | case2 b rest ih =>
    intro a
    simp only [dedupFirst, List.mem_cons, ih, List.mem_filter]
    by_cases hab : a = b
    · simp [hab]
    · simp [hab]

theorem priorityLoop_spec :
    ∀ (pri acc rem : List String), rem.Nodup →
      pri.foldl (fun (p : List String × List String) field =>
          if field ∈ p.2 then (p.1 ++ [field], p.2.erase field) else p)
        (acc, rem)
        = (acc ++ dedupFirst (pri.filter (fun k => k ∈ rem)),
           rem.filter (fun k => k ∉ pri)) := by
  intro pri
  induction pri with
  | nil => intro acc rem _; simp [dedupFirst]
  | cons fld fs ih =>
    intro acc rem hnd
    simp only [List.foldl_cons]
    by_cases hf : fld ∈ rem
    · rw [if_pos hf, ih (acc ++ [fld]) (rem.erase fld) (hnd.erase fld),
        Prod.mk.injEq]
      have hfe : List.filter (fun k => decide (k ∈ rem.erase fld)) fs
          = List.filter (fun b => decide (b ≠ fld))
              (List.filter (fun k => decide (k ∈ rem)) fs) := by
        rw [List.filter_filter]
        refine List.filter_congr (fun k _ => ?_)
        by_cases h1 : k = fld <;> by_cases h2 : k ∈ rem <;>
          simp [h1, h2, hnd.mem_erase_iff]
      constructor
      · rw [List.filter_cons_of_pos (by simpa using hf)]
        simp only [dedupFirst, hfe, List.append_assoc, List.singleton_append]
      · rw [List.Nodup.erase_eq_filter hnd, List.filter_filter]
        refine List.filter_congr (fun k hk => ?_)
        by_cases h1 : k = fld <;> by_cases h2 : k ∈ fs <;> simp [h1, h2]
    · rw [if_neg hf, ih acc rem hnd, Prod.mk.injEq]
      constructor
      · rw [List.filter_cons_of_neg (by simpa using hf)]
      · apply List.filter_congr
        intro k hk
        have : k ≠ fld := fun hh => hf (hh ▸ hk)
        simp [List.mem_cons, this]

/-- C2: the computed column order consists of exactly those
priority-list names present among the registered keys, in the fixed
priority order with each name appearing at most once, followed by all
remaining registered keys in ascending code-point order; hence every
present priority column precedes every alphabetically ordered column. -/
theorem columnOrder_spec (reg : List String) :
    buildOrdered reg
      = dedupFirst (priorityFields.filter (fun k => k ∈ reg))
        ++ (sortedFields reg).filter (fun k => k ∉ priorityFields)
    ∧ List.Sorted (fun a b => strLe a b = true)
        ((sortedFields reg).filter (fun k => k ∉ priorityFields)) := by
  constructor
  · simp only [buildOrdered]
    rw [priorityLoop_spec priorityFields [] (sortedFields reg)
      (sortedFields_nodup reg)]
    simp only [List.nil_append]
    congr 2
    apply List.filter_congr
    intro k _
    simp [mem_sortedFields]
  · exact (sortedFields_sorted reg).filter _

/-! ## Claim C9: output bytes do not depend on set-iteration order -/

theorem sortedFields_perm_invariant {f1 f2 : List String}
    (hp : f1.Perm f2) : sortedFields f1 = sortedFields f2 :=
  List.eq_of_perm_of_sorted
    ((List.perm_insertionSort _ f1.dedup).trans
      ((hp.dedup).trans (List.perm_insertionSort _ f2.dedup).symm))
    (sortedFields_sorted f1) (sortedFields_sorted f2)

/-- C9: the CSV writer is a pure function of the extracted rows and the
field-name set: renaming the one run-order-dependent representation
(the iteration order of the field set) by any permutation leaves the
written rows, the column order and the output bytes identical, so two
runs over the same parsed input in the same file order produce
byte-identical CSV. -/
theorem csv_output_deterministic (rows : List Rec) (f1 f2 : List String)
    (hp : f1.Perm f2) : saveToCsv rows f1 = saveToCsv rows f2 := by
  unfold saveToCsv buildOrdered
  rw [sortedFields_perm_invariant hp]

/-- C9 witness: two permuted registries give identical output on a
concrete row list. -/
theorem csv_output_deterministic_witness :
    saveToCsv [[("a", "1")]] ["b", "a", "source_file"]
      = saveToCsv [[("a", "1")]] ["a", "source_file", "b"] :=
  csv_output_deterministic _ _ _ (by decide)

/-! ## Claim C7: key prefixes in record-root flattening -/

theorem str_append_assoc (a b c : String) : a ++ b ++ c = a ++ (b ++ c) :=
  String.ext (by simp [String.data_append, List.append_assoc])

theorem str_append_empty (a : String) : a ++ "" = a :=
  String.ext (by simp [String.data_append])

theorem str_empty_append (a : String) : "" ++ a = a :=
  String.ext (by simp [String.data_append])

theorem attrFold_keys_shape (keyF : String → String) :
    ∀ (l : List (String × String)) (p : Rec × List String) (k : String),
      k ∈ keysOf (attrFold keyF l p).1 → k ∈ keysOf p.1 ∨ ∃ s, k = keyF s := by
  intro l
  induction l with
  | nil => intro p k hk; exact Or.inl hk
  | cons av rest ih =>
    intro p k hk
    rcases ih _ k hk with hin | hkey
    · rcases mem_keysOf_dictInsert.mp hin with h | h
      · exact Or.inl h
      · exact Or.inr ⟨av.1, h⟩
    · exact Or.inr hkey

theorem flattenElemList_keys_shape (cs : List XTree)
    (ihm : ∀ c ∈ cs, ∀ (r : Rec) (f : List String) (pre k : String),
      k ∈ keysOf (flattenElement c r f pre).1 →
      k ∈ keysOf r ∨ ∃ s, k = pre ++ stripNamespace c.tag ++ s) :
    ∀ (r : Rec) (f : List String) (pre k : String),
      k ∈ keysOf (flattenElemList cs r f pre).1 →
      k ∈ keysOf r ∨ ∃ c ∈ cs, ∃ s, k = pre ++ stripNamespace c.tag ++ s := by
  induction cs with
  | nil => intro r f pre k hk; exact Or.inl hk
  | cons c rest iih =>
    intro r f pre k hk
    simp only [flattenElemList] at hk
    rcases iih (fun d hd => ihm d (by simp [hd])) _ _ _ _ hk with hin | hdeep
    · rcases ihm c (by simp) r f pre k hin with h | ⟨s, hs⟩
      · exact Or.inl h
      · exact Or.inr ⟨c, by simp, s, hs⟩
    · obtain ⟨d, hd, s, hs⟩ := hdeep
      exact Or.inr ⟨d, by simp [hd], s, hs⟩

theorem flattenElement_keys_shape :
    ∀ (e : XTree) (r : Rec) (f : List String) (pre k : String),
      k ∈ keysOf (flattenElement e r f pre).1 →
      k ∈ keysOf r ∨ ∃ s, k = pre ++ stripNamespace e.tag ++ s := by
  intro e
  induction e using treeMemInd with
  | _ t a x cs ih =>
    intro r f pre k hk
    simp only [flattenElement] at hk
    rcases flattenElemList_keys_shape cs
        (fun c hc => ih c hc) _ _ _ _ hk with hin | hdeep
    · revert hin
      split
      · intro hin
        rcases mem_keysOf_dictInsert.mp hin with hin2 | hk2
        · rcases attrFold_keys_shape _ a _ k hin2 with h | ⟨s, hs⟩
          · exact Or.inl h
          · refine Or.inr ⟨"_@" ++ stripNamespace s, ?_⟩
            rw [hs, XTree.tag, str_append_assoc (pre ++ stripNamespace t)]
        · refine Or.inr ⟨"", ?_⟩
          rw [hk2, XTree.tag, str_append_empty]
      · intro hin
        rcases attrFold_keys_shape _ a _ k hin with h | ⟨s, hs⟩
        · exact Or.inl h
        · refine Or.inr ⟨"_@" ++ stripNamespace s, ?_⟩
          rw [hs, XTree.tag, str_append_assoc (pre ++ stripNamespace t)]
    · obtain ⟨c, _, s, hs⟩ := hdeep
      refine Or.inr ⟨"_" ++ (stripNamespace c.tag ++ s), ?_⟩
      rw [hs, XTree.tag]
      apply String.ext
      simp [String.data_append, List.append_assoc]

/-- C7 counterexample: flattening the record root A with child B
carrying attribute b yields the key A_B_@b, which begins with the
record root tag A; under the claimed prefix rule (record root tag
omitted) the key would have been B_@b. -/
theorem recordKey_includes_root_tag :
    keysOf (elementToRecord
        (.node "A" [] "" [.node "B" [("b", "1")] "" []]) "f.xml"
        ["source_file"]).1
      = ["source_file", "A_B_@b"]
    ∧ List.IsPrefix "A".data "A_B_@b".data
    ∧ "A_B_@b" ≠ "B_@b" :=
  ⟨by decide, by decide, by decide⟩

/-- C7 amended: in record-root flattening the key prefix is the
underscore-joined chain of ancestor local tag names INCLUDING the
record root tag: every key of the produced record other than
source_file begins with the record root local tag. -/
theorem elementToRecord_keys_prefixed :
    ∀ (e : XTree) (fname : String) (f : List String) (k : String),
      k ∈ keysOf (elementToRecord e fname f).1 →
      k = "source_file" ∨ ∃ s, k = stripNamespace e.tag ++ s := by
  intro e fname f k hk
  simp only [elementToRecord] at hk
  revert hk
  split
  · intro hk
    rcases flattenElement_keys_shape e _ f "" k hk with hin | ⟨s, hs⟩
    · simp only [keysOf, List.map_cons, List.map_nil, List.mem_cons,
        List.not_mem_nil, or_false] at hin
      exact Or.inl hin
    · refine Or.inr ⟨s, ?_⟩
      rw [hs, str_empty_append]
  · intro hk
    simp [keysOf] at hk

/-- C7 witness: the amended statement evaluated at the key A_B_@b of
the concrete record of the counterexample tree. -/
theorem elementToRecord_keys_prefixed_witness :
    "A_B_@b" = "source_file"
    ∨ ∃ s, "A_B_@b" = stripNamespace
        (XTree.node "A" [] "" [.node "B" [("b", "1")] "" []]).tag ++ s :=
  elementToRecord_keys_prefixed
    (.node "A" [] "" [.node "B" [("b", "1")] "" []]) "f.xml"
    ["source_file"] "A_B_@b" (by decide)

/-! ## Claim C5: source_file is present and non-empty in every row -/

theorem keysOf_contains_iff {r : Rec} {k : String} :
    (keysOf r).contains k = true ↔ k ∈ keysOf r := by
  simp [List.contains]

theorem sourceFileOk_dictInsert {d : Rec} {k v : String}
    (h : sourceFileOk d) (hkv : k ≠ "source_file" ∨ v ≠ "") :
    sourceFileOk (dictInsert d k v) := by
  by_cases hk : k = "source_file"
  · subst hk
    rcases hkv with h1 | h2
    · exact absurd rfl h1
    · exact ⟨v, getVal_dictInsert_self d _ v, h2⟩
  · obtain ⟨w, hw, hwne⟩ := h
    refine ⟨w, ?_, hwne⟩
    rw [getVal_dictInsert_ne d v (fun hh => hk hh.symm)]
    exact hw

theorem attrFold_sourceFileOk (keyF : String → String)
    (hkeyF : ∀ s, keyF s ≠ "source_file") :
    ∀ (l : List (String × String)) (p : Rec × List String),
      sourceFileOk p.1 → sourceFileOk (attrFold keyF l p).1 := by
  intro l
  induction l with
  | nil => intro p h; exact h
  | cons av rest ih =>
    intro p h
    exact ih _ (sourceFileOk_dictInsert h (Or.inl (hkeyF av.1)))

theorem flattenElemList_sourceFileOk (cs : List XTree)
    (ihm : ∀ c ∈ cs, ∀ (r : Rec) (f : List String) (pre : String),
      sourceFileOk r → sourceFileOk (flattenElement c r f pre).1) :
    ∀ (r : Rec) (f : List String) (pre : String),
      sourceFileOk r → sourceFileOk (flattenElemList cs r f pre).1 := by
  induction cs with
  | nil => intro r f pre h; exact h
  | cons c rest iih =>
    intro r f pre h
    simp only [flattenElemList]
    exact iih (fun d hd => ihm d (by simp [hd])) _ _ _
      (ihm c (by simp) r f pre h)

theorem flattenElement_sourceFileOk :
    ∀ (e : XTree) (r : Rec) (f : List String) (pre : String),
      sourceFileOk r → sourceFileOk (flattenElement e r f pre).1 := by
  intro e
  induction e using treeMemInd with
  | _ t a x cs ih =>
    intro r f pre h
    simp only [flattenElement]
    apply flattenElemList_sourceFileOk cs (fun c hc => ih c hc)
    split
    · next hx =>
      exact sourceFileOk_dictInsert
        (attrFold_sourceFileOk _
          (fun s => attrKey_ne_sourceFile pre (stripNamespace t)
            (stripNamespace s)) a (r, f) h)
        (Or.inr hx)
    · exact attrFold_sourceFileOk _
        (fun s => attrKey_ne_sourceFile pre (stripNamespace t)
          (stripNamespace s)) a (r, f) h

theorem elementToRecord_sourceFileOk (e : XTree) (fname : String)
    (f : List String) (hf : fname ≠ "") :
    (elementToRecord e fname f).1 = []
    ∨ sourceFileOk (elementToRecord e fname f).1 := by
  simp only [elementToRecord]
  split
  · right
    exact flattenElement_sourceFileOk e _ f ""
      ⟨fname, by simp [getVal], hf⟩
  · left; rfl

theorem buildRecs_sourceFileOk {fname : String} (hf : fname ≠ "") :
    ∀ (es : List XTree) (f : List String) (acc : List Rec),
      (∀ r ∈ acc, sourceFileOk r) →
      ∀ r ∈ (buildRecs es fname f acc).1, sourceFileOk r := by
  intro es
  induction es with
  | nil => intro f acc hacc; exact hacc
  | cons e rest ih =>
    intro f acc hacc r hr
    simp only [buildRecs] at hr
    refine ih _ _ ?_ r hr
    intro r2 hr2
    revert hr2
    split
    · intro hr2; exact hacc r2 hr2
    · next hne =>
      intro hr2
      rcases List.mem_append.mp hr2 with h | h
      · exact hacc r2 h
      · rcases elementToRecord_sourceFileOk e fname f hf with hnil | hok
        · rw [hnil] at hne; simp at hne
        · simp only [List.mem_singleton] at h
          rw [h]; exact hok

theorem strat1_sourceFileOk (root : XTree) {fname : String}
    (hf : fname ≠ "") :
    ∀ (pats : List String) (st : St) (acc : List Rec),
      (∀ r ∈ acc, sourceFileOk r) →
      ∀ r ∈ (strat1 root fname pats st acc).1, sourceFileOk r := by
  intro pats
  induction pats with
  | nil => intro st acc hacc; exact hacc
  | cons p rest ih =>
    intro st acc hacc r hr
    revert hr
    simp only [strat1]
    split
    · split
      · intro hr
        exact ih _ _ (buildRecs_sourceFileOk hf _ _ _ hacc) r hr
      · intro hr
        exact buildRecs_sourceFileOk hf _ _ _ hacc r hr
    · intro hr
      exact ih _ _ hacc r hr

theorem strat2_sourceFileOk {fname : String} (hf : fname ≠ "") :
    ∀ (cs : List XTree) (st : St) (acc : List Rec),
      (∀ r ∈ acc, sourceFileOk r) →
      ∀ r ∈ (strat2 cs fname st acc).1, sourceFileOk r := by
  intro cs
  induction cs with
  | nil => intro st acc hacc; exact hacc
  | cons c rest ih =>
    intro st acc hacc r hr
    revert hr
    simp only [strat2]
    split
    · split
      · intro hr
        exact ih _ _ (buildRecs_sourceFileOk hf _ _ _ hacc) r hr
      · intro hr
        exact buildRecs_sourceFileOk hf _ _ _ hacc r hr
    · intro hr
      exact ih _ _ hacc r hr

theorem strat3_sourceFileOk (root : XTree) {fname : String}
    (hf : fname ≠ "") (st : St) (acc : List Rec)
    (hacc : ∀ r ∈ acc, sourceFileOk r) :
    ∀ r ∈ (strat3 root fname st acc).1, sourceFileOk r := by
  simp only [strat3]
  split
  · exact buildRecs_sourceFileOk hf _ _ _ hacc
  · exact hacc

theorem extract_sourceFileOk (root : XTree) {fname : String}
    (hf : fname ≠ "") (st : St) :
    ∀ r ∈ (extractRecordsSmart root fname st).1, sourceFileOk r := by
  simp only [extractRecordsSmart]
  split
  · split
    · exact strat3_sourceFileOk root hf _ _
        (strat2_sourceFileOk hf _ _ _
          (strat1_sourceFileOk root hf _ _ _ (by simp)))
    · exact strat2_sourceFileOk hf _ _ _
        (strat1_sourceFileOk root hf _ _ _ (by simp))
  · exact strat1_sourceFileOk root hf _ _ _ (by simp)

theorem attrFold_getVal_ne (keyF : String → String) (K : String)
    (hkeyF : ∀ s, keyF s ≠ K) :
    ∀ (l : List (String × String)) (p : Rec × List String),
      getVal (attrFold keyF l p).1 K = getVal p.1 K := by
  intro l
  induction l with
  | nil => intro p; rfl
  | cons av rest ih =>
    intro p
    rw [attrFold, ih]
    exact getVal_dictInsert_ne _ _ (fun hh => hkeyF av.1 hh.symm)

theorem nestedHead_getVal (t x : String) (a : List (String × String))
    (pd : Rec) (f : List String) :
    getVal (if pyStrip x ≠ "" then
        insertReg (attrFold (fun s => t ++ ".@" ++ stripNamespace s) a (pd, f))
          (t ++ ".value") (pyStrip x)
      else attrFold (fun s => t ++ ".@" ++ stripNamespace s) a (pd, f)).1
      "source_file" = getVal pd "source_file" := by
  split
  · simp only [insertReg]
    rw [getVal_dictInsert_ne _ _
      (fun hh => dotValueKey_ne_sourceFile t hh.symm)]
    exact attrFold_getVal_ne _ _
      (fun s => dotAttrKey_ne_sourceFile t (stripNamespace s)) a (pd, f)
  · exact attrFold_getVal_ne _ _
      (fun s => dotAttrKey_ne_sourceFile t (stripNamespace s)) a (pd, f)

theorem flattenNestedList_getVal_sf (cs : List XTree)
    (ihm : ∀ c ∈ cs, ∀ (pp : String) (pd : Rec) (f : List String),
      ∀ r ∈ (flattenNested c pp pd f).1,
        getVal r "source_file" = getVal pd "source_file") :
    ∀ (pp : String) (pd : Rec) (f : List String),
      ∀ r ∈ (flattenNestedList cs pp pd f).1,
        getVal r "source_file" = getVal pd "source_file" := by
  induction cs with
  | nil => intro pp pd f r hr; simp [flattenNestedList] at hr
  | cons c rest iih =>
    intro pp pd f r hr
    simp only [flattenNestedList] at hr
    rcases List.mem_append.mp hr with h | h
    · exact ihm c (by simp) pp pd f r h
    · exact iih (fun d hd => ihm d (by simp [hd])) pp pd _ r h

theorem mem_leafRecords {W r : Rec}
    (hr : r ∈ (if W.isEmpty then ([] : List Rec) else [W])) : r = W := by
  revert hr
  split
  · intro hr; simp at hr
  · intro hr; simpa using hr

theorem flattenNested_getVal_sf :
    ∀ (e : XTree) (pp : String) (pd : Rec) (f : List String),
      ∀ r ∈ (flattenNested e pp pd f).1,
        getVal r "source_file" = getVal pd "source_file" := by
  intro e
  induction e using treeMemInd with
  | _ t a x cs ih =>
    intro pp pd f r hr
    simp only [flattenNested, ite_self] at hr
    revert hr
    split
    · intro hr
      rw [mem_leafRecords hr]
      exact nestedHead_getVal (stripNamespace t) x a pd f
    · intro hr
      exact (flattenNestedList_getVal_sf cs (fun c hc => ih c hc)
          _ _ _ r hr).trans (nestedHead_getVal (stripNamespace t) x a pd f)

theorem processXmlFile_sourceFileOk :
    ∀ (parsed : Except String XTree) (fname : String) (st : St),
      fname ≠ "" → ∀ r ∈ (processXmlFile parsed fname st).1,
        sourceFileOk r := by
  intro parsed fname st hf r hr
  match parsed with
  | .error msg => simp [processXmlFile] at hr
  | .ok root =>
    simp only [processXmlFile] at hr
    rw [List.mem_map] at hr
    obtain ⟨r0, hr0, hpatch⟩ := hr
    have hr0ok : sourceFileOk r0 ∨ getVal r0 "source_file" = none := by
      revert hr0
      split
      · intro hr0
        right
        have := flattenNested_getVal_sf root "" [] _ r0 hr0
        simpa [getVal] using this
      · intro hr0
        left
        exact extract_sourceFileOk root hf _ r0 hr0
    rcases hr0ok with hok | hnone
    · obtain ⟨v, hv, hvne⟩ := hok
      have hmem : "source_file" ∈ keysOf r0 :=
        getVal_isSome_iff_mem.mp (by simp [hv])
      rw [← hpatch, if_pos (keysOf_contains_iff.mpr hmem)]
      exact ⟨v, hv, hvne⟩
    · have hnmem : ¬ ((keysOf r0).contains "source_file" = true) := by
        rw [keysOf_contains_iff]
        intro hm
        have := getVal_isSome_iff_mem.mpr hm
        simp [hnone] at this
      rw [← hpatch, if_neg hnmem]
      exact ⟨fname, getVal_dictInsert_self r0 _ fname, hf⟩

theorem processFilesLoop_sourceFileOk :
    ∀ (files : List (Except String XTree × String)) (st : St)
      (acc : List Rec) (total : Nat),
      (∀ pf ∈ files, pf.2 ≠ "") → (∀ r ∈ acc, sourceFileOk r) →
      ∀ r ∈ (processFilesLoop files st acc total).1, sourceFileOk r := by
  intro files
  induction files with
  | nil => intro st acc total _ hacc; exact hacc
  | cons pf rest ih =>
    intro st acc total hn hacc r hr
    obtain ⟨p, fname⟩ := pf
    simp only [processFilesLoop] at hr
    refine ih _ _ _ (fun q hq => hn q (by simp [hq])) ?_ r hr
    intro r2 hr2
    rcases List.mem_append.mp hr2 with h | h
    · exact hacc r2 h
    · exact processXmlFile_sourceFileOk p fname st
        (hn (p, fname) (by simp)) r2 h

/-- C5: every row accumulated by a run, and every row as written by the
CSV writer, contains the key source_file with a non-empty value,
provided each processed file has a non-empty base name; this holds
under the record-root strategies and the fallback alike. -/
theorem emitted_rows_source_file_nonempty
    (folder : String) (files : List (Except String XTree × String))
    (hn : ∀ pf ∈ files, pf.2 ≠ "") :
    (∀ r ∈ (processAllFiles folder files).1, sourceFileOk r)
    ∧ ∀ fs, ∀ r ∈ (saveToCsv (processAllFiles folder files).1 fs).1,
        sourceFileOk r := by
  have hrun : ∀ r ∈ (processAllFiles folder files).1, sourceFileOk r := by
    intro r hr
    revert hr
    simp only [processAllFiles]
    split
    · intro hr; simp at hr
    · intro hr
      exact processFilesLoop_sourceFileOk files _ [] 0 hn (by simp) r hr
  refine ⟨hrun, ?_⟩
  intro fs r hr
  revert hr
  simp only [saveToCsv]
  split
  · intro hr; simp at hr
  · intro hr
    rw [List.mem_map] at hr
    obtain ⟨r0, hr0, hpatch⟩ := hr
    have hok := hrun r0 hr0
    rw [← hpatch]
    split
    · exact hok
    · exact ⟨"unknown", getVal_dictInsert_self r0 _ _, by decide⟩

/-- C5 witness: the first row of the scenario-A run carries the file
name as its non-empty source_file value. -/
theorem emitted_rows_source_file_nonempty_witness :
    sourceFileOk
      [("source_file", "stops.xml"), ("Stop_@id", "1"), ("Stop_@name", "A")] :=
  (emitted_rows_source_file_nonempty "data" [(.ok stopsTree, "stops.xml")]
      (by decide)).1
    [("source_file", "stops.xml"), ("Stop_@id", "1"), ("Stop_@name", "A")]
    (by decide)

/-! ## Claim C4: row keys are always registered; header covers rows -/

theorem attrFold_fields_mono (keyF : String → String) :
    ∀ (l : List (String × String)) (p : Rec × List String) (y : String),
      y ∈ p.2 → y ∈ (attrFold keyF l p).2 := by
  intro l
  induction l with
  | nil => intro p y hy; exact hy
  | cons av rest ih =>
    intro p y hy
    exact ih _ y (mem_addField_of_mem hy)

theorem attrFold_keysReg (keyF : String → String) :
    ∀ (l : List (String × String)) (p : Rec × List String),
      (∀ k ∈ keysOf p.1, k ∈ p.2) →
      ∀ k ∈ keysOf (attrFold keyF l p).1, k ∈ (attrFold keyF l p).2 := by
  intro l
  induction l with
  | nil => intro p h; exact h
  | cons av rest ih =>
    intro p h
    refine ih _ ?_
    intro k hk
    rcases mem_keysOf_dictInsert.mp hk with h2 | h2
    · exact mem_addField_of_mem (h k h2)
    · exact h2 ▸ mem_addField_self _ _

theorem flattenStep_mono (keyF : String → String) (key v : String)
    (cnd : Prop) [Decidable cnd] (a : List (String × String)) (r : Rec)
    (f : List String) :
    ∀ y ∈ f,
      y ∈ (if cnd then insertReg (attrFold keyF a (r, f)) key v
        else attrFold keyF a (r, f)).2 := by
  intro y hy
  split
  · exact mem_addField_of_mem (attrFold_fields_mono keyF a (r, f) y hy)
  · exact attrFold_fields_mono keyF a (r, f) y hy

theorem flattenStep_keysReg (keyF : String → String) (key v : String)
    (cnd : Prop) [Decidable cnd] (a : List (String × String)) (r : Rec)
    (f : List String) (h : ∀ k ∈ keysOf r, k ∈ f) :
    ∀ k ∈ keysOf (if cnd then insertReg (attrFold keyF a (r, f)) key v
        else attrFold keyF a (r, f)).1,
      k ∈ (if cnd then insertReg (attrFold keyF a (r, f)) key v
        else attrFold keyF a (r, f)).2 := by
  intro k hk
  revert hk
  split
  · intro hk
    rcases mem_keysOf_dictInsert.mp hk with h2 | h2
    · exact mem_addField_of_mem (attrFold_keysReg keyF a (r, f) h k h2)
    · exact h2 ▸ mem_addField_self _ _
  · exact attrFold_keysReg keyF a (r, f) h k

theorem flattenElemList_fields (cs : List XTree)
    (ihm : ∀ c ∈ cs, ∀ (r : Rec) (f : List String) (pre : String),
      (∀ k ∈ keysOf r, k ∈ f) →
      (∀ y ∈ f, y ∈ (flattenElement c r f pre).2)
      ∧ ∀ k ∈ keysOf (flattenElement c r f pre).1,
          k ∈ (flattenElement c r f pre).2) :
    ∀ (r : Rec) (f : List String) (pre : String),
      (∀ k ∈ keysOf r, k ∈ f) →
      (∀ y ∈ f, y ∈ (flattenElemList cs r f pre).2)
      ∧ ∀ k ∈ keysOf (flattenElemList cs r f pre).1,
          k ∈ (flattenElemList cs r f pre).2 := by
  induction cs with
  | nil => intro r f pre h; exact ⟨fun y hy => hy, h⟩
  | cons c rest iih =>
    intro r f pre h
    simp only [flattenElemList]
    obtain ⟨m1, r1⟩ := ihm c (by simp) r f pre h
    obtain ⟨m2, r2⟩ := iih (fun d hd => ihm d (by simp [hd])) _ _ pre r1
    exact ⟨fun y hy => m2 y (m1 y hy), r2⟩

theorem flattenElement_fields :
    ∀ (e : XTree) (r : Rec) (f : List String) (pre : String),
      (∀ k ∈ keysOf r, k ∈ f) →
      (∀ y ∈ f, y ∈ (flattenElement e r f pre).2)
      ∧ ∀ k ∈ keysOf (flattenElement e r f pre).1,
          k ∈ (flattenElement e r f pre).2 := by
  intro e
  induction e using treeMemInd with
  | _ t a x cs ih =>
    intro r f pre h
    simp only [flattenElement]
    obtain ⟨m2, r2⟩ := flattenElemList_fields cs (fun c hc => ih c hc)
      _ _ (pre ++ stripNamespace t ++ "_")
      (flattenStep_keysReg
        (fun s => pre ++ stripNamespace t ++ "_@" ++ stripNamespace s)
        (pre ++ stripNamespace t) (pyStrip x) (pyStrip x ≠ "") a r f h)
    refine ⟨fun y hy => m2 y ?_, r2⟩
    exact flattenStep_mono _ _ _ _ a r f y hy

theorem flattenNestedList_fields (cs : List XTree)
    (ihm : ∀ c ∈ cs, ∀ (pp : String) (pd : Rec) (f : List String),
      (∀ k ∈ keysOf pd, k ∈ f) →
      (∀ y ∈ f, y ∈ (flattenNested c pp pd f).2)
      ∧ ∀ r ∈ (flattenNested c pp pd f).1, ∀ k ∈ keysOf r,
          k ∈ (flattenNested c pp pd f).2) :
    ∀ (pp : String) (pd : Rec) (f : List String),
      (∀ k ∈ keysOf pd, k ∈ f) →
      (∀ y ∈ f, y ∈ (flattenNestedList cs pp pd f).2)
      ∧ ∀ r ∈ (flattenNestedList cs pp pd f).1, ∀ k ∈ keysOf r,
          k ∈ (flattenNestedList cs pp pd f).2 := by
  induction cs with
  | nil =>
    intro pp pd f h
    exact ⟨fun y hy => hy, by intro r hr; simp [flattenNestedList] at hr⟩
  | cons c rest iih =>
    intro pp pd f h
    simp only [flattenNestedList]
    obtain ⟨m1, r1⟩ := ihm c (by simp) pp pd f h
    obtain ⟨m2, r2⟩ := iih (fun d hd => ihm d (by simp [hd])) pp pd _
      (fun k hk => m1 k (h k hk))
    refine ⟨fun y hy => m2 y (m1 y hy), ?_⟩
    intro r hr k hk
    rcases List.mem_append.mp hr with hmem | hmem
    · exact m2 k (r1 r hmem k hk)
    · exact r2 r hmem k hk

theorem flattenNested_fields :
    ∀ (e : XTree) (pp : String) (pd : Rec) (f : List String),
      (∀ k ∈ keysOf pd, k ∈ f) →
      (∀ y ∈ f, y ∈ (flattenNested e pp pd f).2)
      ∧ ∀ r ∈ (flattenNested e pp pd f).1, ∀ k ∈ keysOf r,
          k ∈ (flattenNested e pp pd f).2 := by
  intro e
  induction e using treeMemInd with
  | _ t a x cs ih =>
    intro pp pd f h
    simp only [flattenNested, ite_self]
    split
    · constructor
      · intro y hy
        exact flattenStep_mono _ _ _ _ a pd f y hy
      · intro r hr k hk
        rw [mem_leafRecords hr] at hk
        exact flattenStep_keysReg
          (fun s => stripNamespace t ++ ".@" ++ stripNamespace s)
          (stripNamespace t ++ ".value") (pyStrip x) (pyStrip x ≠ "")
          a pd f h k hk
    · obtain ⟨m2, r2⟩ := flattenNestedList_fields cs (fun c hc => ih c hc)
        (getElementPath t pp) _ _
        (flattenStep_keysReg
          (fun s => stripNamespace t ++ ".@" ++ stripNamespace s)
          (stripNamespace t ++ ".value") (pyStrip x) (pyStrip x ≠ "")
          a pd f h)
      refine ⟨fun y hy => m2 y (flattenStep_mono _ _ _ _ a pd f y hy), r2⟩

theorem elementToRecord_fields (e : XTree) (fname : String)
    (f : List String) (hsf : "source_file" ∈ f) :
    (∀ y ∈ f, y ∈ (elementToRecord e fname f).2)
    ∧ ∀ k ∈ keysOf (elementToRecord e fname f).1,
        k ∈ (elementToRecord e fname f).2 := by
  simp only [elementToRecord]
  obtain ⟨m, r⟩ := flattenElement_fields e [("source_file", fname)] f ""
    (by
      intro k hk
      simp only [keysOf, List.map_cons, List.map_nil, List.mem_cons,
        List.not_mem_nil, or_false] at hk
      exact hk ▸ hsf)
  refine ⟨m, ?_⟩
  intro k hk
  revert hk
  split
  · exact r k
  · intro hk; simp [keysOf] at hk

theorem buildRecs_fields (fname : String) :
    ∀ (es : List XTree) (f : List String) (acc : List Rec),
      "source_file" ∈ f → (∀ r ∈ acc, ∀ k ∈ keysOf r, k ∈ f) →
      (∀ y ∈ f, y ∈ (buildRecs es fname f acc).2)
      ∧ ∀ r ∈ (buildRecs es fname f acc).1, ∀ k ∈ keysOf r,
          k ∈ (buildRecs es fname f acc).2 := by
  intro es
  induction es with
  | nil => intro f acc _ hacc; exact ⟨fun y hy => hy, hacc⟩
  | cons e rest ih =>
    intro f acc hsf hacc
    simp only [buildRecs]
    obtain ⟨m1, r1⟩ := elementToRecord_fields e fname f hsf
    have hacc2 : ∀ r ∈ (if (elementToRecord e fname f).1.isEmpty then acc
        else acc ++ [(elementToRecord e fname f).1]),
        ∀ k ∈ keysOf r, k ∈ (elementToRecord e fname f).2 := by
      intro r hr
      revert hr
      split
      · intro hr k hk
        exact m1 k (hacc r hr k hk)
      · intro hr
        rcases List.mem_append.mp hr with hmem | hmem
        · intro k hk
          exact m1 k (hacc r hmem k hk)
        · simp only [List.mem_singleton] at hmem
          exact hmem ▸ r1
    constructor
    · intro y hy
      exact (ih _ _ (m1 _ hsf) hacc2).1 y (m1 y hy)
    · exact (ih _ _ (m1 _ hsf) hacc2).2

theorem strat1_fields (root : XTree) (fname : String) :
    ∀ (pats : List String) (st : St) (acc : List Rec),
      "source_file" ∈ st.fields →
      (∀ r ∈ acc, ∀ k ∈ keysOf r, k ∈ st.fields) →
      (∀ y ∈ st.fields, y ∈ (strat1 root fname pats st acc).2.fields)
      ∧ ∀ r ∈ (strat1 root fname pats st acc).1, ∀ k ∈ keysOf r,
          k ∈ (strat1 root fname pats st acc).2.fields := by
  intro pats
  induction pats with
  | nil => intro st acc _ hacc; exact ⟨fun y hy => hy, hacc⟩
  | cons p rest ih =>
    intro st acc hsf hacc
    simp only [strat1]
    split
    · obtain ⟨m1, r1⟩ := buildRecs_fields fname (findallDesc root p)
        (pr st _).fields acc hsf hacc
      split
      · constructor
        · intro y hy
          exact (ih _ _ (m1 _ hsf) r1).1 y (m1 y hy)
        · exact (ih _ _ (m1 _ hsf) r1).2
      · exact ⟨m1, r1⟩
    · exact ih _ _ hsf hacc

theorem strat2_fields (fname : String) :
    ∀ (cs : List XTree) (st : St) (acc : List Rec),
      "source_file" ∈ st.fields →
      (∀ r ∈ acc, ∀ k ∈ keysOf r, k ∈ st.fields) →
      (∀ y ∈ st.fields, y ∈ (strat2 cs fname st acc).2.fields)
      ∧ ∀ r ∈ (strat2 cs fname st acc).1, ∀ k ∈ keysOf r,
          k ∈ (strat2 cs fname st acc).2.fields := by
  intro cs
  induction cs with
  | nil => intro st acc _ hacc; exact ⟨fun y hy => hy, hacc⟩
  | cons c rest ih =>
    intro st acc hsf hacc
    simp only [strat2]
    split
    · obtain ⟨m1, r1⟩ := buildRecs_fields fname c.children
        (pr st _).fields acc hsf hacc
      split
      · constructor
        · intro y hy
          exact (ih _ _ (m1 _ hsf) r1).1 y (m1 y hy)
        · exact (ih _ _ (m1 _ hsf) r1).2
      · exact ⟨m1, r1⟩
    · exact ih _ _ hsf hacc

theorem strat3_fields (root : XTree) (fname : String) (st : St)
    (acc : List Rec) (hsf : "source_file" ∈ st.fields)
    (hacc : ∀ r ∈ acc, ∀ k ∈ keysOf r, k ∈ st.fields) :
    (∀ y ∈ st.fields, y ∈ (strat3 root fname st acc).2.fields)
    ∧ ∀ r ∈ (strat3 root fname st acc).1, ∀ k ∈ keysOf r,
        k ∈ (strat3 root fname st acc).2.fields := by
  simp only [strat3]
  split
  · exact buildRecs_fields fname root.children (pr st _).fields acc hsf hacc
  · exact ⟨fun y hy => hy, hacc⟩

theorem extract_fields (root : XTree) (fname : String) (st : St)
    (hsf : "source_file" ∈ st.fields) :
    (∀ y ∈ st.fields, y ∈ (extractRecordsSmart root fname st).2.fields)
    ∧ ∀ r ∈ (extractRecordsSmart root fname st).1, ∀ k ∈ keysOf r,
        k ∈ (extractRecordsSmart root fname st).2.fields := by
  simp only [extractRecordsSmart]
  obtain ⟨m1, r1⟩ := strat1_fields root fname journeyPatterns st []
    hsf (by simp)
  split
  · obtain ⟨m2, r2⟩ := strat2_fields fname root.children
      (strat1 root fname journeyPatterns st []).2
      (strat1 root fname journeyPatterns st []).1 (m1 _ hsf) r1
    split
    · obtain ⟨m3, r3⟩ := strat3_fields root fname
        (strat2 root.children fname
          (strat1 root fname journeyPatterns st []).2
          (strat1 root fname journeyPatterns st []).1).2
        (strat2 root.children fname
          (strat1 root fname journeyPatterns st []).2
          (strat1 root fname journeyPatterns st []).1).1
        (m2 _ (m1 _ hsf)) r2
      exact ⟨fun y hy => m3 y (m2 y (m1 y hy)), r3⟩
    · exact ⟨fun y hy => m2 y (m1 y hy), r2⟩
  · exact ⟨m1, r1⟩

theorem processXmlFile_fields (parsed : Except String XTree)
    (fname : String) (st : St) (hsf : "source_file" ∈ st.fields) :
    (∀ y ∈ st.fields, y ∈ (processXmlFile parsed fname st).2.2.fields)
    ∧ "source_file" ∈ (processXmlFile parsed fname st).2.2.fields
    ∧ ∀ r ∈ (processXmlFile parsed fname st).1, ∀ k ∈ keysOf r,
        k ∈ (processXmlFile parsed fname st).2.2.fields := by
  match parsed with
  | .error msg =>
    exact ⟨fun y hy => hy, hsf, by intro r hr; simp [processXmlFile] at hr⟩
  | .ok root =>
    simp only [processXmlFile]
    have hcore : ∀ (st2 : St), "source_file" ∈ st2.fields →
        (∀ y ∈ st2.fields,
          y ∈ (if (extractRecordsSmart root fname st2).1.isEmpty then
              ((flattenNested root "" []
                  (pr (extractRecordsSmart root fname st2).2
                    "  → Using fallback extraction strategy...").fields).1,
               { pr (extractRecordsSmart root fname st2).2
                    "  → Using fallback extraction strategy..." with
                  fields := (flattenNested root "" []
                    (pr (extractRecordsSmart root fname st2).2
                      "  → Using fallback extraction strategy...").fields).2 })
            else extractRecordsSmart root fname st2).2.fields)
        ∧ ∀ r ∈ (if (extractRecordsSmart root fname st2).1.isEmpty then
              ((flattenNested root "" []
                  (pr (extractRecordsSmart root fname st2).2
                    "  → Using fallback extraction strategy...").fields).1,
               { pr (extractRecordsSmart root fname st2).2
                    "  → Using fallback extraction strategy..." with
                  fields := (flattenNested root "" []
                    (pr (extractRecordsSmart root fname st2).2
                      "  → Using fallback extraction strategy...").fields).2 })
            else extractRecordsSmart root fname st2).1,
          ∀ k ∈ keysOf r,
            k ∈ (if (extractRecordsSmart root fname st2).1.isEmpty then
              ((flattenNested root "" []
                  (pr (extractRecordsSmart root fname st2).2
                    "  → Using fallback extraction strategy...").fields).1,
               { pr (extractRecordsSmart root fname st2).2
                    "  → Using fallback extraction strategy..." with
                  fields := (flattenNested root "" []
                    (pr (extractRecordsSmart root fname st2).2
                      "  → Using fallback extraction strategy...").fields).2 })
            else extractRecordsSmart root fname st2).2.fields := by
      intro st2 hsf2
      obtain ⟨me, re⟩ := extract_fields root fname st2 hsf2
      split
      · obtain ⟨mf, rf⟩ := flattenNested_fields root "" []
          (pr (extractRecordsSmart root fname st2).2
            "  → Using fallback extraction strategy...").fields
          (by intro k hk; simp [keysOf] at hk)
        exact ⟨fun y hy => mf y (me y hy), rf⟩
      · exact ⟨me, re⟩
    obtain ⟨hm, hrows⟩ := hcore (pr (pr (pr (pr st ("\n" ++ sep70))
      ("Processing: " ++ fname)) ("Root element: " ++ root.tag)) sep70) hsf
    refine ⟨hm, hm _ hsf, ?_⟩
    intro r hr k hk
    rw [List.mem_map] at hr
    obtain ⟨r0, hr0, hpatch⟩ := hr
    rw [← hpatch] at hk
    revert hk
    split
    · intro hk
      exact hrows r0 hr0 k hk
    · intro hk
      rcases mem_keysOf_dictInsert.mp hk with h2 | h2
      · exact hrows r0 hr0 k h2
      · subst h2
        exact hm "source_file" hsf

theorem processFilesLoop_fields :
    ∀ (files : List (Except String XTree × String)) (st : St)
      (acc : List Rec) (total : Nat),
      "source_file" ∈ st.fields →
      (∀ r ∈ acc, ∀ k ∈ keysOf r, k ∈ st.fields) →
      "source_file" ∈ (processFilesLoop files st acc total).2.2.fields
      ∧ ∀ r ∈ (processFilesLoop files st acc total).1, ∀ k ∈ keysOf r,
          k ∈ (processFilesLoop files st acc total).2.2.fields := by
  intro files
  induction files with
  | nil => intro st acc total hsf hacc; exact ⟨hsf, hacc⟩
  | cons pf rest ih =>
    intro st acc total hsf hacc
    obtain ⟨p, fname⟩ := pf
    simp only [processFilesLoop]
    obtain ⟨m1, hsf1, r1⟩ := processXmlFile_fields p fname st hsf
    refine ih _ _ _ hsf1 ?_
    intro r hr
    rcases List.mem_append.mp hr with h | h
    · intro k hk
      exact m1 k (hacc r h k hk)
    · exact r1 r h

theorem mem_buildOrdered {fs : List String} {k : String} (h : k ∈ fs) :
    k ∈ buildOrdered fs := by
  simp only [buildOrdered]
  rw [priorityLoop_spec priorityFields [] (sortedFields fs)
    (sortedFields_nodup fs)]
  simp only [List.nil_append]
  rw [List.mem_append]
  by_cases hp : k ∈ priorityFields
  · left
    rw [mem_dedupFirst, List.mem_filter]
    exact ⟨hp, by simpa using mem_sortedFields.mpr h⟩
  · right
    rw [List.mem_filter]
    exact ⟨mem_sortedFields.mpr h, by simpa using hp⟩

/-- C4: in any run (and hence, instantiating the file list at each of
its prefixes, at every point of a run) every accumulated row has its
key set inside the field registry, source_file is registered from the
start, and the written CSV header is a superset of every written row's
key set. -/
theorem rows_keys_registered
    (folder : String) (files : List (Except String XTree × String)) :
    (∀ r ∈ (processAllFiles folder files).1, ∀ k ∈ keysOf r,
        k ∈ (processAllFiles folder files).2.2.fields)
    ∧ "source_file" ∈ (processAllFiles folder files).2.2.fields
    ∧ ∀ r ∈ (saveToCsv (processAllFiles folder files).1
          (processAllFiles folder files).2.2.fields).1,
        ∀ k ∈ keysOf r,
          k ∈ (saveToCsv (processAllFiles folder files).1
            (processAllFiles folder files).2.2.fields).2.1 := by
  have hmain : (∀ r ∈ (processAllFiles folder files).1, ∀ k ∈ keysOf r,
        k ∈ (processAllFiles folder files).2.2.fields)
      ∧ "source_file" ∈ (processAllFiles folder files).2.2.fields := by
    simp only [processAllFiles]
    split
    · exact ⟨by intro r hr; simp at hr, by simp [pr, initSt]⟩
    · obtain ⟨hsf, hrows⟩ := processFilesLoop_fields files
        (pr initSt ("\nFound " ++ natToStr files.length ++ " XML file(s)"))
        [] 0 (by simp [pr, initSt]) (by simp)
      exact ⟨hrows, hsf⟩
  obtain ⟨hrows, hsf⟩ := hmain
  refine ⟨hrows, hsf, ?_⟩
  intro r hr k hk
  revert hr
  simp only [saveToCsv]
  split
  · intro hr; simp at hr
  · intro hr
    rw [List.mem_map] at hr
    obtain ⟨r0, hr0, hpatch⟩ := hr
    rw [← hpatch] at hk
    apply mem_buildOrdered
    revert hk
    split
    · intro hk
      exact hrows r0 hr0 k hk
    · intro hk
      rcases mem_keysOf_dictInsert.mp hk with h2 | h2
      · exact hrows r0 hr0 k h2
      · exact h2 ▸ hsf

/-- C4 witness: in the scenario-A run the key Stop_@id of the first
accumulated row is registered in the field set. -/
theorem rows_keys_registered_witness :
    "Stop_@id" ∈ (processAllFiles "data"
      [(.ok stopsTree, "stops.xml")]).2.2.fields :=
  (rows_keys_registered "data" [(.ok stopsTree, "stops.xml")]).1
    [("source_file", "stops.xml"), ("Stop_@id", "1"), ("Stop_@name", "A")]
    (by decide) "Stop_@id" (by decide)

/-! ## Claim C8: a parse failure contributes nothing and stops nothing -/

theorem pr_fields (st : St) (m : String) : (pr st m).fields = st.fields := rfl

theorem attrFold_rec_indep (keyF : String → String) :
    ∀ (l : List (String × String)) (r : Rec) (f1 f2 : List String),
      (attrFold keyF l (r, f1)).1 = (attrFold keyF l (r, f2)).1 := by
  intro l
  induction l with
  | nil => intro r f1 f2; rfl
  | cons av rest ih =>
    intro r f1 f2
    simp only [attrFold, insertReg]
    exact ih (dictInsert r (keyF av.1) av.2) _ _

theorem flattenStep_rec_indep (keyF : String → String) (key v : String)
    (cnd : Prop) [Decidable cnd] (a : List (String × String)) (r : Rec)
    (f1 f2 : List String) :
    (if cnd then insertReg (attrFold keyF a (r, f1)) key v
      else attrFold keyF a (r, f1)).1
    = (if cnd then insertReg (attrFold keyF a (r, f2)) key v
      else attrFold keyF a (r, f2)).1 := by
  split
  · simp only [insertReg]
    rw [attrFold_rec_indep keyF a r f1 f2]
  · exact attrFold_rec_indep keyF a r f1 f2

theorem flattenElemList_rec_indep (cs : List XTree)
    (ihm : ∀ c ∈ cs, ∀ (r : Rec) (f1 f2 : List String) (pre : String),
      (flattenElement c r f1 pre).1 = (flattenElement c r f2 pre).1) :
    ∀ (r : Rec) (f1 f2 : List String) (pre : String),
      (flattenElemList cs r f1 pre).1 = (flattenElemList cs r f2 pre).1 := by
  induction cs with
  | nil => intro r f1 f2 pre; rfl
  | cons c rest iih =>
    intro r f1 f2 pre
    simp only [flattenElemList]
    rw [ihm c (by simp) r f1 f2 pre]
    exact iih (fun d hd => ihm d (by simp [hd])) _ _ _ pre

theorem flattenElement_rec_indep :
    ∀ (e : XTree) (r : Rec) (f1 f2 : List String) (pre : String),
      (flattenElement e r f1 pre).1 = (flattenElement e r f2 pre).1 := by
  intro e
  induction e using treeMemInd with
  | _ t a x cs ih =>
    intro r f1 f2 pre
    simp only [flattenElement]
    rw [flattenStep_rec_indep
      (fun s => pre ++ stripNamespace t ++ "_@" ++ stripNamespace s)
      (pre ++ stripNamespace t) (pyStrip x) (pyStrip x ≠ "") a r f1 f2]
    exact flattenElemList_rec_indep cs (fun c hc => ih c hc) _ _ _ _

theorem flattenNestedList_rows_indep (cs : List XTree)
    (ihm : ∀ c ∈ cs, ∀ (pp : String) (pd : Rec) (f1 f2 : List String),
      (flattenNested c pp pd f1).1 = (flattenNested c pp pd f2).1) :
    ∀ (pp : String) (pd : Rec) (f1 f2 : List String),
      (flattenNestedList cs pp pd f1).1 = (flattenNestedList cs pp pd f2).1 := by
  induction cs with
  | nil => intro pp pd f1 f2; rfl
  | cons c rest iih =>
    intro pp pd f1 f2
    simp only [flattenNestedList]
    rw [ihm c (by simp) pp pd f1 f2,
      iih (fun d hd => ihm d (by simp [hd])) pp pd _ _]

theorem flattenNested_rows_indep :
    ∀ (e : XTree) (pp : String) (pd : Rec) (f1 f2 : List String),
      (flattenNested e pp pd f1).1 = (flattenNested e pp pd f2).1 := by
  intro e
  induction e using treeMemInd with
  | _ t a x cs ih =>
    intro pp pd f1 f2
    simp only [flattenNested, ite_self]
    by_cases hcs : cs.isEmpty
    · rw [if_pos hcs, if_pos hcs]
      rw [flattenStep_rec_indep
        (fun s => stripNamespace t ++ ".@" ++ stripNamespace s)
        (stripNamespace t ++ ".value") (pyStrip x) (pyStrip x ≠ "")
        a pd f1 f2]
    · rw [if_neg hcs, if_neg hcs]
      rw [flattenStep_rec_indep
        (fun s => stripNamespace t ++ ".@" ++ stripNamespace s)
        (stripNamespace t ++ ".value") (pyStrip x) (pyStrip x ≠ "")
        a pd f1 f2]
      exact flattenNestedList_rows_indep cs (fun c hc => ih c hc) _ _ _ _

theorem elementToRecord_rec_indep (e : XTree) (fname : String)
    (f1 f2 : List String) :
    (elementToRecord e fname f1).1 = (elementToRecord e fname f2).1 := by
  simp only [elementToRecord]
  rw [flattenElement_rec_indep e [("source_file", fname)] f1 f2 ""]

theorem buildRecs_recs_indep :
    ∀ (es : List XTree) (fname : String) (f1 f2 : List String)
      (acc : List Rec),
      (buildRecs es fname f1 acc).1 = (buildRecs es fname f2 acc).1 := by
  intro es
  induction es with
  | nil => intro fname f1 f2 acc; rfl
  | cons e rest ih =>
    intro fname f1 f2 acc
    simp only [buildRecs]
    rw [elementToRecord_rec_indep e fname f1 f2]
    exact ih fname _ _ _

theorem strat1_recs_indep (root : XTree) (fname : String) :
    ∀ (pats : List String) (st1 st2 : St) (acc : List Rec),
      (strat1 root fname pats st1 acc).1
        = (strat1 root fname pats st2 acc).1 := by
  intro pats
  induction pats with
  | nil => intro st1 st2 acc; rfl
  | cons p rest ih =>
    intro st1 st2 acc
    simp only [strat1, pr_fields]
    by_cases hcond : (findallDesc root p).length > 1
    · rw [if_pos hcond, if_pos hcond,
        buildRecs_recs_indep (findallDesc root p) fname st1.fields
          st2.fields acc]
      split
      · exact ih _ _ _
      · rfl
    · rw [if_neg hcond, if_neg hcond]
      exact ih _ _ _

theorem strat2_recs_indep (fname : String) :
    ∀ (cs : List XTree) (st1 st2 : St) (acc : List Rec),
      (strat2 cs fname st1 acc).1 = (strat2 cs fname st2 acc).1 := by
  intro cs
  induction cs with
  | nil => intro st1 st2 acc; rfl
  | cons c rest ih =>
    intro st1 st2 acc
    simp only [strat2, pr_fields]
    split
    · rw [buildRecs_recs_indep c.children fname st1.fields st2.fields acc]
      split
      · exact ih _ _ _
      · rfl
    · exact ih _ _ _

theorem strat3_recs_indep (root : XTree) (fname : String)
    (st1 st2 : St) (acc : List Rec) :
    (strat3 root fname st1 acc).1 = (strat3 root fname st2 acc).1 := by
  simp only [strat3, pr_fields]
  split
  · rw [buildRecs_recs_indep root.children fname st1.fields st2.fields acc]
  · rfl

theorem extract_recs_indep (root : XTree) (fname : String) (st1 st2 : St) :
    (extractRecordsSmart root fname st1).1
      = (extractRecordsSmart root fname st2).1 := by
  simp only [extractRecordsSmart]
  rw [strat1_recs_indep root fname journeyPatterns st1 st2 []]
  split
  · rw [strat2_recs_indep fname root.children
      (strat1 root fname journeyPatterns st1 []).2
      (strat1 root fname journeyPatterns st2 []).2
      (strat1 root fname journeyPatterns st2 []).1]
    split
    · exact strat3_recs_indep root fname _ _ _
    · exact strat2_recs_indep fname root.children _ _ _
  · exact strat1_recs_indep root fname journeyPatterns st1 st2 []

theorem processXmlFile_rows_indep (parsed : Except String XTree)
    (fname : String) (st1 st2 : St) :
    (processXmlFile parsed fname st1).1
      = (processXmlFile parsed fname st2).1 := by
  match parsed with
  | .error msg => rfl
  | .ok root =>
    simp only [processXmlFile, pr_fields]
    congr 1
    rw [extract_recs_indep root fname
      (pr (pr (pr (pr st1 ("\n" ++ sep70)) ("Processing: " ++ fname))
        ("Root element: " ++ root.tag)) sep70)
      (pr (pr (pr (pr st2 ("\n" ++ sep70)) ("Processing: " ++ fname))
        ("Root element: " ++ root.tag)) sep70)]
    split
    · exact flattenNested_rows_indep root "" [] _ _
    · rfl

theorem processFilesLoop_rows :
    ∀ (files : List (Except String XTree × String)) (st : St)
      (acc : List Rec) (total : Nat),
      (processFilesLoop files st acc total).1
        = acc ++ (files.map fileRows).flatten := by
  intro files
  induction files with
  | nil => intro st acc total; simp [processFilesLoop]
  | cons pf rest ih =>
    intro st acc total
    obtain ⟨p, fname⟩ := pf
    simp only [processFilesLoop, List.map_cons, List.flatten_cons]
    rw [ih]
    rw [processXmlFile_rows_indep p fname st initSt]
    simp [fileRows, List.append_assoc]

theorem processFilesLoop_append :
    ∀ (xs ys : List (Except String XTree × String)) (st : St)
      (acc : List Rec) (total : Nat),
      processFilesLoop (xs ++ ys) st acc total
        = processFilesLoop ys (processFilesLoop xs st acc total).2.2
            (processFilesLoop xs st acc total).1
            (processFilesLoop xs st acc total).2.1 := by
  intro xs
  induction xs with
  | nil => intro ys st acc total; rfl
  | cons pf rest ih =>
    intro ys st acc total
    obtain ⟨p, fname⟩ := pf
    simp only [List.cons_append, processFilesLoop]
    exact ih ys _ _ _

theorem strat1_diags_mono (root : XTree) (fname : String) :
    ∀ (pats : List String) (st : St) (acc : List Rec) (d : String),
      d ∈ st.diags → d ∈ (strat1 root fname pats st acc).2.diags := by
  intro pats
  induction pats with
  | nil => intro st acc d hd; exact hd
  | cons p rest ih =>
    intro st acc d hd
    simp only [strat1]
    split
    · split
      · exact ih _ _ d (List.mem_append_left _ hd)
      · exact List.mem_append_left _ hd
    · exact ih _ _ d hd

theorem strat2_diags_mono (fname : String) :
    ∀ (cs : List XTree) (st : St) (acc : List Rec) (d : String),
      d ∈ st.diags → d ∈ (strat2 cs fname st acc).2.diags := by
  intro cs
  induction cs with
  | nil => intro st acc d hd; exact hd
  | cons c rest ih =>
    intro st acc d hd
    simp only [strat2]
    split
    · split
      · exact ih _ _ d (List.mem_append_left _ hd)
      · exact List.mem_append_left _ hd
    · exact ih _ _ d hd

theorem strat3_diags_mono (root : XTree) (fname : String) (st : St)
    (acc : List Rec) (d : String) (hd : d ∈ st.diags) :
    d ∈ (strat3 root fname st acc).2.diags := by
  simp only [strat3]
  split
  · exact List.mem_append_left _ hd
  · exact hd

theorem extract_diags_mono (root : XTree) (fname : String) (st : St)
    (d : String) (hd : d ∈ st.diags) :
    d ∈ (extractRecordsSmart root fname st).2.diags := by
  simp only [extractRecordsSmart]
  split
  · split
    · exact strat3_diags_mono root fname _ _ d
        (strat2_diags_mono fname root.children _ _ d
          (strat1_diags_mono root fname journeyPatterns st [] d hd))
    · exact strat2_diags_mono fname root.children _ _ d
        (strat1_diags_mono root fname journeyPatterns st [] d hd)
  · exact strat1_diags_mono root fname journeyPatterns st [] d hd

theorem processXmlFile_diags_mono (parsed : Except String XTree)
    (fname : String) (st : St) (d : String) (hd : d ∈ st.diags) :
    d ∈ (processXmlFile parsed fname st).2.2.diags := by
  match parsed with
  | .error msg => exact List.mem_append_left _ hd
  | .ok root =>
    simp only [processXmlFile]
    apply List.mem_append_left
    have hd4 : d ∈ (pr (pr (pr (pr st ("\n" ++ sep70))
        ("Processing: " ++ fname)) ("Root element: " ++ root.tag))
        sep70).diags :=
      List.mem_append_left _ (List.mem_append_left _
        (List.mem_append_left _ (List.mem_append_left _ hd)))
    split
    · exact List.mem_append_left _
        (extract_diags_mono root fname _ d hd4)
    · exact extract_diags_mono root fname _ d hd4

theorem processFilesLoop_diags_mono :
    ∀ (files : List (Except String XTree × String)) (st : St)
      (acc : List Rec) (total : Nat) (d : String),
      d ∈ st.diags → d ∈ (processFilesLoop files st acc total).2.2.diags := by
  intro files
  induction files with
  | nil => intro st acc total d hd; exact hd
  | cons pf rest ih =>
    intro st acc total d hd
    obtain ⟨p, fname⟩ := pf
    simp only [processFilesLoop]
    exact ih _ _ _ d (processXmlFile_diags_mono p fname st d hd)

/-- C8 counterexample: in a concrete run with one unparsable file and
one valid file, the run completes with the valid file contributing its
three rows, the corrupt file contributing none, and NO diagnostic of
the whole run mentions the corrupt file name: no diagnostic names the
skipped file. -/
theorem badFile_diag_unnamed :
    (processAllFiles "data"
        [(Except.error "syntax error: line 1, column 0", "bad.xml"),
         (Except.ok stopsTree, "good.xml")]).1.length = 3
    ∧ ((processAllFiles "data"
        [(Except.error "syntax error: line 1, column 0", "bad.xml"),
         (Except.ok stopsTree, "good.xml")]).2.2.diags.all
        (fun d => !(decide (List.IsInfix "bad.xml".data d.data)))) = true :=
  ⟨rfl, by decide⟩

/-- C8 amended: when one source file fails XML parsing it contributes
zero rows and a diagnostic reporting the parse error (though not naming
the file) is produced, while the remaining files are still processed:
the accumulated rows are exactly the concatenation of the other files'
rows in order. -/
theorem parse_failure_skipped (folder msg name : String)
    (pre post : List (Except String XTree × String)) :
    fileRows (Except.error msg, name) = []
    ∧ (processAllFiles folder (pre ++ (Except.error msg, name) :: post)).1
        = (pre.map fileRows).flatten ++ (post.map fileRows).flatten
    ∧ ("  ✗ Error parsing XML: " ++ msg)
        ∈ (processAllFiles folder
            (pre ++ (Except.error msg, name) :: post)).2.2.diags := by
  refine ⟨rfl, ?_, ?_⟩
  · simp only [processAllFiles]
    rw [if_neg (by simp)]
    rw [processFilesLoop_rows]
    simp [fileRows, processXmlFile]
  · simp only [processAllFiles]
    rw [if_neg (by simp)]
    rw [processFilesLoop_append pre ((Except.error msg, name) :: post)]
    simp only [processFilesLoop]
    apply processFilesLoop_diags_mono
    exact List.mem_append_right _ (by simp [processXmlFile, pr])
